import Mathlib

/-!
Verification development for the NRG-IITB scripts repository, centred on
src/parse_xlsx.py: the numeric coercion helpers (safe_int, safe_float), the
constituency-name normalizer (format_constituency_name), the 2019/2024 summary
sheet extractor (parse_2019_2024_summary_sheet) and the reconciliation /
result-derivation step of parse_and_merge.

Modelling conventions (shallow embedding of the Python source):
* Spreadsheet cell values are modelled by `Value` (None, int, float, str).
  Float cells coming from a workbook are always finite, so `Value.vFloat`
  carries an exact rational; Python float results of parsing strings are
  modelled by `PyFloat`, which distinguishes finite values, the two
  infinities and NaN.  Float arithmetic is modelled exactly over ℚ; binary
  floating-point rounding error is out of scope.
* Python `float(str)` is modelled by `pyFloatParse` covering the documented
  literal grammar (optional surrounding whitespace, optional sign, digits
  with optional fraction and exponent, and the case-insensitive literals
  inf / infinity / nan).  Underscore digit separators and overflow of huge
  finite literals to infinity are not modelled; no claim depends on them.
* Character-level operations (upper/lower casing, whitespace, digits) are
  modelled for the character set actually occurring in the reports (ASCII
  plus the non-breaking space U+00A0 that the source strips explicitly).
-/

/-- Whitespace for Python str.strip / str.split / regex \s, restricted to the
characters occurring in the reports (ASCII whitespace and U+00A0). -/
def isPySpace (c : Char) : Bool :=
  c.toNat = 32 || c.toNat = 9 || c.toNat = 10 || c.toNat = 13 || c.toNat = 11 ||
    c.toNat = 12 || c.toNat = 160

/-- ASCII decimal digit, as matched by regex \d on the report text. -/
def isAsciiDigit (c : Char) : Bool :=
  48 ≤ c.toNat && c.toNat ≤ 57

def isAsciiLower (c : Char) : Bool :=
  97 ≤ c.toNat && c.toNat ≤ 122

def isAsciiUpper (c : Char) : Bool :=
  65 ≤ c.toNat && c.toNat ≤ 90

def isAsciiLetter (c : Char) : Bool :=
  isAsciiLower c || isAsciiUpper c

/-- ASCII upper-casing of one character (Python str.upper on report text). -/
def asciiUpper (c : Char) : Char :=
  if isAsciiLower c then Char.ofNat (c.toNat - 32) else c

/-- ASCII lower-casing of one character (Python str.lower on report text). -/
def asciiLower (c : Char) : Char :=
  if isAsciiUpper c then Char.ofNat (c.toNat + 32) else c

def listLower (l : List Char) : List Char :=
  l.map asciiLower

/-- Python str.strip(): drop leading and trailing whitespace. -/
def pyStripList (l : List Char) : List Char :=
  ((l.dropWhile isPySpace).reverse.dropWhile isPySpace).reverse

def pyStrip (s : String) : String :=
  String.mk (pyStripList s.data)

/-- Prefix test on character lists (pattern, text). -/
def isPre : List Char → List Char → Bool
  | [], _ => true
  | _ :: _, [] => false
  | p :: ps, c :: cs => p = c && isPre ps cs

/-- Substring test on character lists: Python `pat in text`. -/
def containsSub (pat : List Char) : List Char → Bool
  | [] => pat.isEmpty
  | c :: cs => isPre pat (c :: cs) || containsSub pat cs

def strContains (hay pat : String) : Bool :=
  containsSub pat.data hay.data

/-- One step bound for Python str.replace: fuel-indexed scanner replacing each
leftmost occurrence of `pat` by `rep`, continuing after the replaced text. -/
def pyReplaceF : Nat → List Char → List Char → List Char → List Char
  | 0, l, _, _ => l
  | _ + 1, [], _, _ => []
  | fuel + 1, c :: cs, pat, rep =>
    if isPre pat (c :: cs) then rep ++ pyReplaceF fuel ((c :: cs).drop pat.length) pat rep
    else c :: pyReplaceF fuel cs pat rep

/-- Python str.replace(pat, rep) for nonempty pat. -/
def pyReplace (l pat rep : List Char) : List Char :=
  pyReplaceF l.length l pat rep

def digitVal (c : Char) : ℕ :=
  c.toNat - 48

/-- Value of a digit string read in base 10. -/
def natOfDigits (l : List Char) : ℕ :=
  l.foldl (fun a c => 10 * a + digitVal c) 0

def qpowNat (q : ℚ) : ℕ → ℚ
  | 0 => 1
  | n + 1 => q * qpowNat q n

def qpowInt (q : ℚ) : ℤ → ℚ
  | Int.ofNat n => qpowNat q n
  | Int.negSucc n => 1 / qpowNat q (n + 1)

/-- Result of Python float(): a finite value, an infinity, or NaN. -/
inductive PyFloat where
  | finite (q : ℚ)
  | inf
  | ninf
  | nan
deriving DecidableEq

/-- Case-insensitive comparison of a character list against a lowercase word. -/
def lowerIs (l pat : List Char) : Bool :=
  listLower l = pat

/-- Exponent part of a float literal, after the e/E marker. -/
def parseExp (l : List Char) : Option ℤ :=
  match l with
  | '+' :: rest =>
    if rest ≠ [] ∧ rest.all isAsciiDigit then some (natOfDigits rest : ℤ) else none
  | '-' :: rest =>
    if rest ≠ [] ∧ rest.all isAsciiDigit then some (-(natOfDigits rest : ℤ)) else none
  | rest =>
    if rest ≠ [] ∧ rest.all isAsciiDigit then some (natOfDigits rest : ℤ) else none

/-- Mantissa of a float literal: digits with an optional fractional part.
Returns its exact value and the unconsumed remainder. -/
def parseMantissa (l : List Char) : Option (ℚ × List Char) :=
  let d1 := l.takeWhile isAsciiDigit
  let r1 := l.dropWhile isAsciiDigit
  match r1 with
  | '.' :: r2 =>
    let d2 := r2.takeWhile isAsciiDigit
    let r3 := r2.dropWhile isAsciiDigit
    if d1 = [] ∧ d2 = [] then none
    else some ((natOfDigits d1 : ℚ) + (natOfDigits d2 : ℚ) / qpowNat 10 d2.length, r3)
  | _ => if d1 = [] then none else some ((natOfDigits d1 : ℚ), r1)

/-- Unsigned float literal: inf / infinity / nan (case-insensitive) or a
mantissa with optional exponent; the whole input must be consumed. -/
def parseUnsigned (l : List Char) : Option PyFloat :=
  if lowerIs l ['i', 'n', 'f'] ∨ lowerIs l ['i', 'n', 'f', 'i', 'n', 'i', 't', 'y'] then
    some PyFloat.inf
  else if lowerIs l ['n', 'a', 'n'] then some PyFloat.nan
  else
    match parseMantissa l with
    | none => none
    | some (m, rest) =>
      match rest with
      | [] => some (PyFloat.finite m)
      | 'e' :: re => (parseExp re).map (fun e => PyFloat.finite (m * qpowInt 10 e))
      | 'E' :: re => (parseExp re).map (fun e => PyFloat.finite (m * qpowInt 10 e))
      | _ => none

def pyFloatNeg : PyFloat → PyFloat
  | PyFloat.finite q => PyFloat.finite (-q)
  | PyFloat.inf => PyFloat.ninf
  | PyFloat.ninf => PyFloat.inf
  | PyFloat.nan => PyFloat.nan

/-- Python float(str): strip whitespace, optional sign, then a float literal.
`none` models ValueError. -/
def pyFloatParse (s : String) : Option PyFloat :=
  match pyStripList s.data with
  | [] => parseUnsigned []
  | c :: rest =>
    if c = '+' then parseUnsigned rest
    else if c = '-' then (parseUnsigned rest).map pyFloatNeg
    else parseUnsigned (c :: rest)

/-- Python int(str): strip whitespace, optional sign, nonempty digit string.
`none` models ValueError. -/
def pyIntParse (s : String) : Option ℤ :=
  match pyStripList s.data with
  | [] => none
  | c :: rest =>
    if c = '+' then
      if rest ≠ [] ∧ rest.all isAsciiDigit then some (natOfDigits rest : ℤ) else none
    else if c = '-' then
      if rest ≠ [] ∧ rest.all isAsciiDigit then some (-(natOfDigits rest : ℤ)) else none
    else if (c :: rest).all isAsciiDigit then some (natOfDigits (c :: rest) : ℤ)
    else none

/-- Truncation toward zero: Python int(float) on a finite value. -/
def ratTrunc (q : ℚ) : ℤ :=
  Int.tdiv q.num (q.den : ℤ)

/-- A spreadsheet cell value as seen by the parser: None, int, (finite) float
or string. -/
inductive Value where
  | vNone
  | vInt (n : ℤ)
  | vFloat (q : ℚ)
  | vStr (s : String)
deriving DecidableEq

/-- Python truthiness of a cell value. -/
def pyTruthy : Value → Bool
  | Value.vNone => false
  | Value.vInt n => n ≠ 0
  | Value.vFloat q => q ≠ 0
  | Value.vStr s => s ≠ ""

/-- Python str() of a cell value.  Finite floats print with Python repr for
integral values; non-integral floats never flow into the string positions
used by the claims, and get a nominal rendering. -/
def pyStr : Value → String
  | Value.vNone => "None"
  | Value.vInt n => toString n
  | Value.vFloat q => if q.den = 1 then toString q.num ++ ".0" else toString q
  | Value.vStr s => s

def nbsp : Char := Char.ofNat 160

/-- src/parse_xlsx.py clean_value: on strings, replace U+00A0 by a space and
strip; a string of the form =(...) whose inside parses as an int becomes that
int, otherwise the cleaned string is kept. -/
def cleanValue : Value → Value
  | Value.vStr s =>
    let l := pyStripList (s.data.map (fun c => if c = nbsp then ' ' else c))
    if isPre ['=', '('] l ∧ l ≠ [] ∧ l.getLast? = some ')' then
      match pyIntParse (String.mk ((l.drop 2).dropLast)) with
      | some n => Value.vInt n
      | none => Value.vStr (String.mk l)
    else Value.vStr (String.mk l)
  | v => v

/-- String cleaning inside src/parse_xlsx.py safe_int: strip, delete commas
and equals signs, replace each hyphen by the digit 0 and each N/A by 0, then
drop one pair of surrounding parentheses. -/
def safeIntClean (s : String) : List Char :=
  let l0 := pyStripList s.data
  let l1 := pyReplace l0 [','] []
  let l2 := pyReplace l1 ['='] []
  let l3 := pyReplace l2 ['-'] ['0']
  let l4 := pyReplace l3 ['N', '/', 'A'] ['0']
  if isPre ['('] l4 ∧ l4.getLast? = some ')' then (l4.drop 1).dropLast else l4

/-- src/parse_xlsx.py safe_int.  `some n` is a normal return; `none` models an
exception escaping the function (the except clause only catches ValueError and
TypeError, so int(float(...)) raising OverflowError on an infinite value is
uncaught). -/
def pySafeInt : Value → Option ℤ
  | Value.vInt n => some n
  | Value.vStr s =>
    match pyFloatParse (String.mk (safeIntClean s)) with
    | some (PyFloat.finite q) => some (ratTrunc q)
    | some PyFloat.inf => none
    | some PyFloat.ninf => none
    | some PyFloat.nan => some 0
    | none => some 0
  | Value.vFloat q => some (ratTrunc q)
  | Value.vNone => some 0

/-- String cleaning inside src/parse_xlsx.py safe_float: strip, delete commas
and equals signs, replace each hyphen and each N/A by the text 0.0, then drop
one pair of surrounding parentheses. -/
def safeFloatClean (s : String) : List Char :=
  let l0 := pyStripList s.data
  let l1 := pyReplace l0 [','] []
  let l2 := pyReplace l1 ['='] []
  let l3 := pyReplace l2 ['-'] ['0', '.', '0']
  let l4 := pyReplace l3 ['N', '/', 'A'] ['0', '.', '0']
  if isPre ['('] l4 ∧ l4.getLast? = some ')' then (l4.drop 1).dropLast else l4

/-- src/parse_xlsx.py safe_float.  float() raises only ValueError or TypeError
here, both caught, so every input yields a value. -/
def pySafeFloat : Value → PyFloat
  | Value.vInt n => PyFloat.finite (n : ℚ)
  | Value.vFloat q => PyFloat.finite q
  | Value.vNone => PyFloat.finite 0
  | Value.vStr s =>
    match pyFloatParse (String.mk (safeFloatClean s)) with
    | some f => f
    | none => PyFloat.finite 0

/-- Worker for splitting on whitespace runs (Python str.split()); the
accumulator carries the current word reversed. -/
def splitWSAux : List Char → List Char → List (List Char)
  | [], acc => if acc = [] then [] else [acc.reverse]
  | c :: cs, acc =>
    if isPySpace c then
      if acc = [] then splitWSAux cs [] else acc.reverse :: splitWSAux cs []
    else splitWSAux cs (c :: acc)

/-- Python str.split() with no arguments: words separated by whitespace runs,
no empty words. -/
def splitWS (l : List Char) : List (List Char) :=
  splitWSAux l []

/-- Python str.capitalize() on an ASCII word: first character upper-cased,
the rest lower-cased. -/
def capWord : List Char → List Char
  | [] => []
  | c :: cs => asciiUpper c :: cs.map asciiLower

def joinWith (sep : List Char) : List (List Char) → List Char
  | [] => []
  | [w] => w
  | w :: ws => w ++ sep ++ joinWith sep ws

/-- Python string.capwords: split on whitespace, capitalize each word, join
with single spaces. -/
def capwordsList (l : List Char) : List Char :=
  joinWith [' '] ((splitWS l).map capWord)

/-- Anchored attempt of one match of regex \s*\((SC|ST)\)\s* (re.I) at the
head of the list; on success returns the remainder after the match. -/
def tryCatParen (l : List Char) : Option (List Char) :=
  match l.dropWhile isPySpace with
  | c1 :: a :: b :: c2 :: rest =>
    if c1 = '(' ∧ c2 = ')' ∧ (a = 'S' ∨ a = 's') ∧ (b = 'C' ∨ b = 'c' ∨ b = 'T' ∨ b = 't') then
      some (rest.dropWhile isPySpace)
    else none
  | _ => none

/-- Fuel-indexed global substitution of \s*\((SC|ST)\)\s* by a single space
(re.sub with re.I), scanning left to right. -/
def subCatParenF : Nat → List Char → List Char
  | 0, l => l
  | _ + 1, [] => []
  | fuel + 1, c :: cs =>
    match tryCatParen (c :: cs) with
    | some rest => ' ' :: subCatParenF fuel rest
    | none => c :: subCatParenF fuel cs

def subCatParen (l : List Char) : List Char :=
  subCatParenF l.length l

/-- End-anchored substitution of -(SC|ST)-?\d*$ (re.I) by the empty string:
parse the reversed list as digits*, an optional hyphen, the category letters
and the leading hyphen. -/
def dropCatSuffix (l : List Char) : List Char :=
  let r := l.reverse
  let r1 := r.dropWhile isAsciiDigit
  let r2 := match r1 with
            | c :: t => if c = '-' then t else r1
            | [] => r1
  match r2 with
  | b :: a :: d :: rest =>
    if d = '-' ∧ (b = 'C' ∨ b = 'c' ∨ b = 'T' ∨ b = 't') ∧ (a = 'S' ∨ a = 's') then
      rest.reverse
    else l
  | _ => l

/-- End-anchored substitution of \s*-\s*\d+\s*$ by the empty string. -/
def dropNumSuffix (l : List Char) : List Char :=
  let r := l.reverse
  let r1 := r.dropWhile isPySpace
  let d := r1.takeWhile isAsciiDigit
  let r2 := (r1.dropWhile isAsciiDigit).dropWhile isPySpace
  match d, r2 with
  | _ :: _, c :: rest => if c = '-' then (rest.dropWhile isPySpace).reverse else l
  | _, _ => l

/-- End-anchored substitution of -Gen$ (re.I) by the empty string. -/
def dropGenSuffix (l : List Char) : List Char :=
  match l.reverse with
  | n :: e :: g :: d :: rest =>
    if d = '-' ∧ (n = 'N' ∨ n = 'n') ∧ (e = 'E' ∨ e = 'e') ∧ (g = 'G' ∨ g = 'g') then
      rest.reverse
    else l
  | _ => l

/-- Worker for Python str.split('-'): empty segments are kept. -/
def splitDashAux : List Char → List Char → List (List Char)
  | [], acc => [acc.reverse]
  | c :: cs, acc =>
    if c = '-' then acc.reverse :: splitDashAux cs [] else splitDashAux cs (c :: acc)

def splitDash (l : List Char) : List (List Char) :=
  splitDashAux l []

/-- Python str.replace for the single character ampersand by the word and. -/
def replaceAmp (l : List Char) : List Char :=
  l.flatMap (fun c => if c = '&' then ['a', 'n', 'd'] else [c])

/-- src/parse_xlsx.py format_constituency_name: falsy input gives Unknown;
otherwise replace U+00A0 by spaces, strip, drop a leading run of digits,
whitespace and hyphens, erase (SC) and (ST) markers, drop -SC and -ST, trailing
numeric and -Gen suffixes, then split on hyphens, capitalize the nonempty
stripped segments, rejoin with hyphens and replace ampersands by the word
and. -/
def formatConstituencyName (s : String) : String :=
  if s = "" then "Unknown"
  else
    let l0 := s.data.map (fun c => if c = nbsp then ' ' else c)
    let l1 := pyStripList l0
    let l2 := l1.dropWhile (fun c => isAsciiDigit c || isPySpace c || c = '-')
    let l3 := pyStripList (subCatParen l2)
    let l4 := dropCatSuffix l3
    let l5 := dropNumSuffix l4
    let l6 := dropGenSuffix l5
    let parts := (splitDash l6).filter (fun p => pyStripList p ≠ [])
    let parts2 := parts.map (fun p => capwordsList (pyStripList p))
    String.mk (replaceAmp (joinWith ['-'] parts2))

/-- Python round(x, 2): round half to even at two decimal places, modelled
exactly over the rationals. -/
def ratFloor (q : ℚ) : ℤ :=
  Int.fdiv q.num (q.den : ℤ)

def halfEvenInt (q : ℚ) : ℤ :=
  let f := ratFloor q
  let r := q - (f : ℚ)
  if r < 1 / 2 then f
  else if 1 / 2 < r then f + 1
  else if f % 2 = 0 then f else f + 1

def pyRound2 (q : ℚ) : ℚ :=
  (halfEvenInt (q * 100) : ℚ) / 100

/-- One {Men, Women, Third_Gender, Total} group as produced by
get_empty_gender_obj(0) and the summary parser rows. -/
structure GenderQuad where
  men : ℤ
  women : ℤ
  thirdGender : ℤ
  total : ℤ
deriving DecidableEq

def zeroQuad : GenderQuad :=
  { men := 0, women := 0, thirdGender := 0, total := 0 }

/-- One winner or runner-up entry of the Result object. -/
structure ResultEntry where
  party : Value
  cand : Value
  votes : ℤ
deriving DecidableEq

def emptyResultEntry : ResultEntry :=
  { party := Value.vNone, cand := Value.vNone, votes := 0 }

structure ResultObj where
  winner : ResultEntry
  runnerUp : ResultEntry
  margin : ℤ
deriving DecidableEq

def emptyResult : ResultObj :=
  { winner := emptyResultEntry, runnerUp := emptyResultEntry, margin := 0 }

/-- One candidate row as produced by the detailed parsers; percentage fields
are exact rationals (see the modelling conventions above). -/
structure Candidate where
  name : Value
  gender : Value
  age : ℤ
  category : Value
  partyName : Value
  partySymbol : Value
  totalVotesPolled : ℤ
  validVotes : ℤ
  votesGeneral : ℤ
  votesPostal : ℤ
  votesTotal : ℤ
  pctOverElectors : ℚ
  pctOverVotesPolled : ℚ
  pctOverValidVotes : ℚ
  totalElectors : ℤ
deriving DecidableEq

/-- One per-constituency record of parse_2019_2024_summary_sheet.  The dict
fields keep dict semantics: Summary_Candidate_Stats and Electors accept
arbitrary keys (association lists in insertion order); Voters and Votes only
update keys present in their fixed templates.  summaryCandidateStats is an
Option because parse_and_merge deletes the key before serialization. -/
structure SummaryRecord where
  id : String
  constituency : Option String
  stateUT : Option String
  category : Option String
  candidates : List Candidate
  summaryCandidateStats : Option (List (String × GenderQuad))
  electors : List (String × GenderQuad)
  voters : List (String × GenderQuad)
  pollingPercentage : PyFloat
  votes : List (String × ℤ)
  psNumber : ℤ
  psAvg : ℤ
  dates : List String
  result : ResultObj
deriving DecidableEq

/-- Association-list lookup (Python dict read). -/
def alookup {α : Type} (k : String) : List (String × α) → Option α
  | [] => none
  | (k2, v) :: rest => if k = k2 then some v else alookup k rest

/-- Association-list write with dict semantics: replace in place if the key
exists, else append. -/
def aset {α : Type} (k : String) (v : α) : List (String × α) → List (String × α)
  | [] => [(k, v)]
  | (k2, v2) :: rest => if k = k2 then (k, v) :: rest else (k2, v2) :: aset k v rest

/-- Association-list write only when the key is already present
(Python `if key in d: d[key] = v`). -/
def asetIfMember {α : Type} (k : String) (v : α) (l : List (String × α)) : List (String × α) :=
  if (alookup k l).isSome then aset k v l else l

def electorsInit : List (String × GenderQuad) :=
  [("General", zeroQuad), ("OverSeas", zeroQuad), ("Service", zeroQuad), ("Total", zeroQuad)]

def cuKey : String :=
  "Votes Not Counted From CU(s) as Per ECI Instructions"

def votersInit : List (String × GenderQuad) :=
  [("General", zeroQuad), ("OverSeas", zeroQuad), ("Proxy", zeroQuad), ("Postal", zeroQuad),
    ("Total", zeroQuad), (cuKey, zeroQuad)]

def notaKey : String :=
  "Votes Polled for " ++ String.singleton (Char.ofNat 39) ++ "NOTA" ++
    String.singleton (Char.ofNat 39) ++ "(Including Postal)"

def votesInit : List (String × ℤ) :=
  [("Total Votes Polled On EVM", 0), ("Total Deducted Votes From EVM", 0),
    ("Total Valid Votes polled on EVM", 0), ("Postal Votes Counted", 0),
    ("Postal Votes Deducted", 0), ("Valid Postal Votes", 0),
    ("Total Valid Votes Polled", 0), ("Test Votes polled On EVM", 0),
    (notaKey, 0), ("Tendered Votes", 0)]

/-- The fresh record built at the top of parse_2019_2024_summary_sheet for a
sheet whose title is `title`. -/
def initSummaryRecord (title : String) : SummaryRecord :=
  { id := pyStrip title
    constituency := none
    stateUT := none
    category := none
    candidates := []
    summaryCandidateStats := some []
    electors := electorsInit
    voters := votersInit
    pollingPercentage := PyFloat.finite 0
    votes := votesInit
    psNumber := 0
    psAvg := 0
    dates := []
    result := emptyResult }

/-- Voters Total Total read in parse_and_merge via chained dict gets. -/
def votersTotalTotal (r : SummaryRecord) : ℤ :=
  match alookup "Total" r.voters with
  | some q => q.total
  | none => 0

/-- Votes Total-Valid-Votes-Polled read in parse_and_merge. -/
def validVotesFromSummary (r : SummaryRecord) : ℤ :=
  match alookup "Total Valid Votes Polled" r.votes with
  | some n => n
  | none => 0

/-- Electors Total Total of a record (the elector total the spec says should
backfill each candidate). -/
def electorsTotalTotal (r : SummaryRecord) : ℤ :=
  match alookup "Total" r.electors with
  | some q => q.total
  | none => 0

/-- The candidate update loop body of parse_and_merge: backfill total votes
polled and valid votes from the summary when the candidate value is zero, and
recompute the percentage over valid votes from the effective denominator. -/
def updateCand (totalPolled validSummary : ℤ) (c : Candidate) : Candidate :=
  let tvp := if c.totalVotesPolled = 0 then totalPolled else c.totalVotesPolled
  let validToUse := if c.validVotes ≠ 0 then c.validVotes else validSummary
  let vv := if c.validVotes = 0 then validSummary else c.validVotes
  let pct :=
    if 0 < validToUse then pyRound2 ((c.votesTotal : ℚ) / (validToUse : ℚ) * 100) else 0
  { c with totalVotesPolled := tvp, validVotes := vv, pctOverValidVotes := pct }

/-- Stable insertion of a candidate into a list sorted descending by
votesSecured.total: an incoming candidate goes before the first strictly
smaller total, after equal totals already present. -/
def insertDesc (c : Candidate) : List Candidate → List Candidate
  | [] => [c]
  | d :: ds => if d.votesTotal ≤ c.votesTotal then c :: d :: ds else d :: insertDesc c ds

/-- Python sorted(candidate_list, key=votes secured total, reverse=True): the
unique stable descending order. -/
def sortCandsDesc : List Candidate → List Candidate
  | [] => []
  | c :: cs => insertDesc c (sortCandsDesc cs)

/-- The winner / runner-up / margin recomputation of parse_and_merge applied
to the already sorted candidate list. -/
def deriveResult (old : ResultObj) (sorted : List Candidate) : ResultObj :=
  match sorted with
  | [] => old
  | w :: rest =>
    let withWinner :=
      { old with winner := { party := w.partyName, cand := w.name, votes := w.votesTotal } }
    match rest with
    | r :: _ =>
      { withWinner with
          runnerUp := { party := r.partyName, cand := r.name, votes := r.votesTotal },
          margin := w.votesTotal - r.votesTotal }
    | [] =>
      { withWinner with runnerUp := emptyResultEntry, margin := w.votesTotal }

/-- The per-constituency body of the merge loop of parse_and_merge (XLSX
path): skip records whose ID is falsy or absent from the candidates map,
deleting Summary_Candidate_Stats; otherwise backfill the candidate list,
attach it, recompute the result when the list is nonempty, and delete
Summary_Candidate_Stats. -/
def mergeConstituency (candsMap : List (String × List Candidate)) (rec : SummaryRecord) :
    SummaryRecord :=
  if rec.id = "" then { rec with summaryCandidateStats := none }
  else
    match alookup rec.id candsMap with
    | none => { rec with summaryCandidateStats := none }
    | some cl =>
      let totalPolled := votersTotalTotal rec
      let validSummary := validVotesFromSummary rec
      let ul := cl.map (updateCand totalPolled validSummary)
      let withCands := { rec with candidates := ul }
      let withResult :=
        if ul.isEmpty then withCands
        else { withCands with result := deriveResult withCands.result (sortCandsDesc ul) }
      { withResult with summaryCandidateStats := none }

/-- The whole merge loop over the parsed summaries. -/
def mergeAll (candsMap : List (String × List Candidate)) (recs : List SummaryRecord) :
    List SummaryRecord :=
  recs.map (mergeConstituency candsMap)

/-- Row access `row[i]`.  The real sheets give every row the full sheet
width; out-of-range access (which would raise IndexError and abort the year)
is modelled as a None cell, and every concrete input below uses full-width
rows so the two never differ. -/
def pyGet (row : List Value) (i : Nat) : Value :=
  row.getD i Value.vNone

/-- safe_int as seen from the summary parser.  An uncaught OverflowError in
safe_int propagates out of parse_2019_2024_summary_sheet and aborts the whole
year inside parse_and_merge, producing no records at all; since every claim
quantifies over parsed records, the defaulted value stands in for the
impossible cell. -/
def safeIntD (v : Value) : ℤ :=
  (pySafeInt v).getD 0

def lowerStr (s : String) : String :=
  String.mk (listLower s.data)

/-- The STATE_NAME_CORRECTIONS table keyed by lower-cased state name. -/
def stateNameCorrections (k : String) : Option String :=
  if k = "andhra prade" then some "Andhra Pradesh"
  else if k = "orissa" then some "Odisha"
  else if k = "chhattisgarh" then some "Chhattisgarh"
  else if k = "nct of delhi" then some "NCT OF Delhi"
  else if k = "telangana" then some "Telangana"
  else none

/-- Leftmost match of regex \((SC|ST)\) with re.I, returning the upper-cased
group. -/
def findParenCat : List Char → Option String
  | [] => none
  | c :: cs =>
    match c :: cs with
    | '(' :: a :: b :: ')' :: _ =>
      if a = 'S' ∨ a = 's' then
        if b = 'C' ∨ b = 'c' then some "SC"
        else if b = 'T' ∨ b = 't' then some "ST"
        else findParenCat cs
      else findParenCat cs
    | _ => findParenCat cs

/-- Leftmost match of regex -(SC|ST) with re.I, returning the upper-cased
group. -/
def findDashCat : List Char → Option String
  | [] => none
  | c :: cs =>
    match c :: cs with
    | '-' :: a :: b :: _ =>
      if a = 'S' ∨ a = 's' then
        if b = 'C' ∨ b = 'c' then some "SC"
        else if b = 'T' ∨ b = 't' then some "ST"
        else findDashCat cs
      else findDashCat cs
    | _ => findDashCat cs

/-- Category inference of the State/UT header row: a (SC) or (ST) marker,
else a -SC or -ST marker, else GENERAL. -/
def categoryOf (constRaw : String) : String :=
  match findParenCat constRaw.data with
  | some g => g
  | none =>
    match findDashCat constRaw.data with
    | some g => g
    | none => "GENERAL"

/-- The quadruple row read of the CANDIDATES / ELECTORS / VOTERS sections. -/
def readQuad (row : List Value) : GenderQuad :=
  { men := safeIntD (pyGet row 3), women := safeIntD (pyGet row 4),
    thirdGender := safeIntD (pyGet row 5), total := safeIntD (pyGet row 6) }

/-- Python truthiness of a row: any(row). -/
def rowAny (row : List Value) : Bool :=
  row.any pyTruthy

/-- Comparison safe_float(x) != 0.0 (true for inf and nan as in Python). -/
def pyFloatNe0 : PyFloat → Bool
  | PyFloat.finite q => q ≠ 0
  | _ => true

/-- A lookahead row holds date content when column 3 or 5 is a string
containing a slash. -/
def isDateRow (r : List Value) : Bool :=
  (match cleanValue (pyGet r 3) with
   | Value.vStr s => containsSub ['/'] s.data
   | _ => false) ||
  (match cleanValue (pyGet r 5) with
   | Value.vStr s => containsSub ['/'] s.data
   | _ => false)

/-- The three guarded appends of the DATES branch, applied to the found date
row. -/
def datesFromRow (dr : List Value) (ds : List String) : List String :=
  let poll := pyStr (cleanValue (pyGet dr 3))
  let decl := pyStr (cleanValue (pyGet dr 5))
  let ds1 :=
    if poll ≠ "" ∧ strContains poll "/" ∧ strContains (lowerStr poll) "polling" = false then
      ds ++ [poll]
    else ds
  let alt := pyStr (cleanValue (pyGet dr 4))
  let ds2 :=
    if alt ≠ "" ∧ alt ∉ ds1 ∧ strContains alt "/" ∧
        strContains (lowerStr alt) "polling" = false then
      ds1 ++ [alt]
    else ds1
  if decl ≠ "" ∧ strContains decl "/" ∧ strContains (lowerStr decl) "declaration" = false then
    ds2 ++ [decl]
  else ds2

/-- The section state of parse_2019_2024_summary_sheet. -/
inductive CSection where
  | stateUT
  | stats
  | electors
  | voters
  | votes
  | pollingStation
  | dates
  | result
  | nop
deriving DecidableEq

/-- The State/UT header row extraction: state name before the first hyphen
with the corrections table applied, category and normalized constituency name
from column 3. -/
def applyStateRow (row : List Value) (d : SummaryRecord) : SummaryRecord :=
  let sn := pyStrip (String.mk ((pyStr (cleanValue (pyGet row 1))).data.takeWhile
    (fun c => c ≠ '-')))
  let constRaw := pyStrip (pyStr (cleanValue (pyGet row 3)))
  { d with
      stateUT := some ((stateNameCorrections (lowerStr sn)).getD sn)
      category := some (categoryOf constRaw)
      constituency := some (formatConstituencyName constRaw) }

/-- One data row of the CANDIDATES / ELECTORS sections (arbitrary keys are
inserted, as for a Python dict). -/
def applyQuadRow (row : List Value) (sec : CSection) (d : SummaryRecord) : SummaryRecord :=
  let key := pyStr (cleanValue (pyGet row 1))
  if key ≠ "" ∧ 6 < row.length then
    match sec with
    | CSection.stats =>
      match d.summaryCandidateStats with
      | some l => { d with summaryCandidateStats := some (aset key (readQuad row) l) }
      | none => d
    | _ => { d with electors := aset key (readQuad row) d.electors }
  else d

/-- One data row of the VOTERS section. -/
def applyVotersRow (row : List Value) (d : SummaryRecord) : SummaryRecord :=
  let key := pyStr (cleanValue (pyGet row 1))
  if key = "" then d
  else if strContains key "POLLING PERCENTAGE" then
    let pctVal := if pyFloatNe0 (pySafeFloat (pyGet row 3)) then pyGet row 3 else pyGet row 6
    { d with pollingPercentage := pySafeFloat pctVal }
  else if (alookup key d.voters).isSome ∧ 6 < row.length then
    { d with voters := aset key (readQuad row) d.voters }
  else d

/-- One data row of the VOTES section. -/
def applyVotesRow (row : List Value) (d : SummaryRecord) : SummaryRecord :=
  let key := pyStr (cleanValue (pyGet row 1))
  if key ≠ "" ∧ 6 < row.length ∧ (alookup key d.votes).isSome then
    { d with votes := aset key (safeIntD (pyGet row 6)) d.votes }
  else d

/-- One data row of the RESULT section (only reached while the winner party
is still falsy); returns the updated record and the next section. -/
def applyResultRow (row : List Value) (d : SummaryRecord) : SummaryRecord × CSection :=
  let key := pyStr (cleanValue (pyGet row 1))
  if (key = "Winner" ∨ key = "Runner-Up") ∧ 6 < row.length then
    let entry : ResultEntry :=
      { party := cleanValue (pyGet row 3), cand := cleanValue (pyGet row 4),
        votes := safeIntD (pyGet row 6) }
    if key = "Winner" then
      ({ d with result := { d.result with winner := entry } }, CSection.result)
    else
      ({ d with result := { d.result with runnerUp := entry } }, CSection.result)
  else if key = "Margin" then
    ({ d with result := { d.result with margin := safeIntD (pyGet row 3) } }, CSection.nop)
  else (d, CSection.result)

/-- The section-scoped row loop of parse_2019_2024_summary_sheet.  The DATES
lookahead scans the current row and the next four, mirroring
range(i, min(i + 5, len(all_rows))). -/
def parseRowsAux : List (List Value) → CSection → SummaryRecord → SummaryRecord
  | [], _, d => d
  | row :: rest, sec, d =>
    if rowAny row = false then parseRowsAux rest sec d
    else
      let cellOne := pyStr (cleanValue (pyGet row 0))
      if strContains cellOne "State/UT" then
        parseRowsAux rest CSection.stateUT (applyStateRow row d)
      else if strContains cellOne "CANDIDATES" then parseRowsAux rest CSection.stats d
      else if strContains cellOne "ELECTORS" then parseRowsAux rest CSection.electors d
      else if strContains cellOne "VOTERS" then parseRowsAux rest CSection.voters d
      else if strContains cellOne "VOTES" then parseRowsAux rest CSection.votes d
      else if strContains cellOne "POLLING STATION" then
        parseRowsAux rest CSection.pollingStation d
      else if strContains cellOne "DATES" then
        let d2 :=
          match ((row :: rest).take 5).find? isDateRow with
          | some dr => { d with dates := datesFromRow dr d.dates }
          | none => d
        parseRowsAux rest CSection.dates d2
      else if strContains cellOne "RESULT" then parseRowsAux rest CSection.result d
      else if sec = CSection.stats ∨ sec = CSection.electors then
        parseRowsAux rest sec (applyQuadRow row sec d)
      else if sec = CSection.voters then parseRowsAux rest sec (applyVotersRow row d)
      else if sec = CSection.votes then parseRowsAux rest sec (applyVotesRow row d)
      else if sec = CSection.pollingStation then
        let key := pyStr (cleanValue (pyGet row 1))
        if key = "Number" then
          parseRowsAux rest sec { d with psNumber := safeIntD (pyGet row 3) }
        else if strContains key "Average Electors" then
          parseRowsAux rest CSection.nop { d with psAvg := safeIntD (pyGet row 6) }
        else parseRowsAux rest sec d
      else if sec = CSection.result ∧ pyTruthy d.result.winner.party = false then
        let (d2, sec2) := applyResultRow row d
        parseRowsAux rest sec2 d2
      else parseRowsAux rest sec d

/-- Lexicographic code-point comparison, the order Python uses on strings. -/
def listCharLt : List Char → List Char → Bool
  | [], [] => false
  | [], _ :: _ => true
  | _ :: _, [] => false
  | a :: as, b :: bs =>
    if a.toNat < b.toNat then true
    else if b.toNat < a.toNat then false
    else listCharLt as bs

def strLt (s t : String) : Bool :=
  listCharLt s.data t.data

/-- Sorted insertion without duplicates, by the code-point order Python uses
on strings. -/
def insertStr (s : String) : List String → List String
  | [] => [s]
  | t :: ts =>
    if strLt s t then s :: t :: ts
    else if s = t then t :: ts
    else t :: insertStr s ts

/-- Python sorted(list(set(l))) on strings: the sorted duplicate-free list. -/
def sortedDedup : List String → List String
  | [] => []
  | s :: ss => insertStr s (sortedDedup ss)

/-- src/parse_xlsx.py parse_2019_2024_summary_sheet over the rows of one
sheet titled `title`. -/
def parseSummarySheet (rows : List (List Value)) (title : String) : SummaryRecord :=
  let d := parseRowsAux rows CSection.nop (initSummaryRecord title)
  { d with dates := sortedDedup d.dates }

/-! Concrete fixtures used by the claim theorems, witnesses and
counterexamples below. -/

/-- Default candidate used only as the default of headD and getD reads. -/
def dummyCand : Candidate :=
  { name := Value.vNone, gender := Value.vNone, age := 0, category := Value.vNone,
    partyName := Value.vNone, partySymbol := Value.vNone, totalVotesPolled := 0,
    validVotes := 0, votesGeneral := 0, votesPostal := 0, votesTotal := 0,
    pctOverElectors := 0, pctOverVotesPolled := 0, pctOverValidVotes := 0, totalElectors := 0 }

/-- A candidate as the detailed parser would produce it: the detailed source
supplied valid votes (1000) and a vote-share percentage (30.0); the
total-votes-polled and total-electors placeholders are still zero. -/
def candA : Candidate :=
  { name := Value.vStr "A", gender := Value.vStr "MALE", age := 40,
    category := Value.vStr "GENERAL", partyName := Value.vStr "P1",
    partySymbol := Value.vNone, totalVotesPolled := 0, validVotes := 1000,
    votesGeneral := 200, votesPostal := 50, votesTotal := 250,
    pctOverElectors := 1, pctOverVotesPolled := 2, pctOverValidVotes := 30,
    totalElectors := 0 }

/-- A second candidate with all summary-level placeholders still zero. -/
def candB : Candidate :=
  { candA with
      name := Value.vStr "B"
      partyName := Value.vStr "P2"
      votesTotal := 100
      validVotes := 0
      pctOverValidVotes := 0 }

/-- A summary record with voters total 900, valid votes 880 and elector total
7, as the summary parser would deliver it to the merge. -/
def recMerge : SummaryRecord :=
  { initSummaryRecord "S01-1" with
      voters := aset "Total" { zeroQuad with total := 900 } votersInit
      votes := aset "Total Valid Votes Polled" 880 votesInit
      electors := aset "Total" { zeroQuad with total := 7 } electorsInit }

def candsMapMerge : List (String × List Candidate) :=
  [("S01-1", [candA, candB])]

/-- A DATES heading row carrying three distinct date strings in columns 3, 4
and 5 (poll date, alternate poll date, declaration date). -/
def rowsDates3 : List (List Value) :=
  [[Value.vStr "DATES", Value.vNone, Value.vNone, Value.vStr "23/04/2024",
    Value.vStr "10/05/2024", Value.vStr "04/06/2024", Value.vNone]]

/-- A sheet whose RESULT section states a winner, for a constituency that
resolves no candidate rows. -/
def rowsResultSrc : List (List Value) :=
  [[Value.vStr "RESULT", Value.vNone, Value.vNone, Value.vNone, Value.vNone, Value.vNone,
    Value.vNone],
   [Value.vNone, Value.vStr "Winner", Value.vNone, Value.vStr "XYZ Party",
    Value.vStr "John Doe", Value.vNone, Value.vInt 500]]

/-- A record still carrying its parsed Summary_Candidate_Stats. -/
def recStats : SummaryRecord :=
  { initSummaryRecord "S01-1" with
      summaryCandidateStats := some [("Contested", zeroQuad)] }

/-! Helper lemmas about the merge step. -/

theorem merge_candidates_spec (m : List (String × List Candidate)) (rec : SummaryRecord)
    (cl : List Candidate) (hid : rec.id ≠ "") (hcl : alookup rec.id m = some cl) :
    (mergeConstituency m rec).candidates =
      cl.map (updateCand (votersTotalTotal rec) (validVotesFromSummary rec)) := by
  unfold mergeConstituency
  simp only [hid, if_false, hcl]
  split <;> rfl

theorem length_insertDesc (c : Candidate) (l : List Candidate) :
    (insertDesc c l).length = l.length + 1 := by
  induction l with
  | nil => rfl
  | cons d ds ih => by_cases h : d.votesTotal ≤ c.votesTotal <;> simp [insertDesc, h, ih]

theorem length_sortCandsDesc (l : List Candidate) :
    (sortCandsDesc l).length = l.length := by
  induction l with
  | nil => rfl
  | cons c cs ih => simp [sortCandsDesc, length_insertDesc, ih]

/-- C3.  The claim says safe_int and safe_float never raise and resolve
malformed input to 0; the positive examples hold, but safe_int("inf") reaches
int(float("inf")), which raises OverflowError, an exception the
except (ValueError, TypeError) clause does not catch, so safe_int does raise
(modelled by the `none` result). -/
theorem safe_int_uncaught_overflow_on_inf :
    pySafeInt (Value.vStr "inf") = none ∧
    pySafeInt (Value.vStr "1,234") = some 1234 ∧
    pySafeInt (Value.vStr "(50)") = some 50 ∧
    pySafeInt (Value.vStr "N/A") = some 0 := by
  decide

/-- C9 counterexample.  The merge loop does not only touch candidates and
result: it deletes the parsed Summary_Candidate_Stats field from every
record (line 776 and line 821 of src/parse_xlsx.py), so that parsed field is
not unchanged between extraction and serialization. -/
theorem stats_deleted_counterexample :
    recStats.summaryCandidateStats = some [("Contested", zeroQuad)] ∧
    (mergeConstituency [] recStats).summaryCandidateStats = none := by
  decide

/-- C9 amended.  Apart from the candidate list, the derived result and the
deleted Summary_Candidate_Stats, every field of a summary record is unchanged
by the merge step. -/
theorem merge_frame_other_fields_unchanged (m : List (String × List Candidate))
    (rec : SummaryRecord) :
    (mergeConstituency m rec).id = rec.id ∧
    (mergeConstituency m rec).stateUT = rec.stateUT ∧
    (mergeConstituency m rec).constituency = rec.constituency ∧
    (mergeConstituency m rec).category = rec.category ∧
    (mergeConstituency m rec).electors = rec.electors ∧
    (mergeConstituency m rec).voters = rec.voters ∧
    (mergeConstituency m rec).pollingPercentage = rec.pollingPercentage ∧
    (mergeConstituency m rec).votes = rec.votes ∧
    (mergeConstituency m rec).psNumber = rec.psNumber ∧
    (mergeConstituency m rec).psAvg = rec.psAvg ∧
    (mergeConstituency m rec).dates = rec.dates := by
  unfold mergeConstituency
  by_cases hid : rec.id = "" <;> simp only [hid, if_true, if_false]
  · simp
  · cases halk : alookup rec.id m with
    | none => simp
    | some cl =>
      by_cases hcl :
          (cl.map (updateCand (votersTotalTotal rec) (validVotesFromSummary rec))).isEmpty <;>
        simp [hcl]

/-- C2 counterexample.  For a constituency with a source-stated winner and no
resolved candidate rows, the final output keeps the source-stated result,
instead of the null/zero default the claim requires. -/
theorem result_from_source_survives_counterexample :
    ((mergeAll [] [parseSummarySheet rowsResultSrc "S01-1"]).headD
        (initSummaryRecord "")).result.winner.party = Value.vStr "XYZ Party" ∧
    ((mergeAll [] [parseSummarySheet rowsResultSrc "S01-1"]).headD
        (initSummaryRecord "")).result.winner.party ≠ emptyResult.winner.party := by
  decide

/-- C2 amended.  The result is recomputed from the candidates only when at
least one candidate row resolved; when the ID is absent from the candidate
map, or resolves to an empty list, the extraction-time result (including any
source-stated winner) is retained unchanged. -/
theorem merge_keeps_result_without_candidates (m : List (String × List Candidate))
    (rec : SummaryRecord)
    (h : alookup rec.id m = none ∨ alookup rec.id m = some []) :
    (mergeConstituency m rec).result = rec.result := by
  unfold mergeConstituency
  by_cases hid : rec.id = ""
  · simp [hid]
  · simp only [hid, if_false]
    rcases h with h | h <;> simp [h]

/-- C2 amended witness: the record of the C2 counterexample, whose candidate
lookup is empty, keeps its result through the merge. -/
theorem merge_keeps_result_without_candidates_witness :
    (mergeConstituency [] (parseSummarySheet rowsResultSrc "S01-1")).result =
      (parseSummarySheet rowsResultSrc "S01-1").result :=
  merge_keeps_result_without_candidates [] (parseSummarySheet rowsResultSrc "S01-1")
    (Or.inl (by decide))

/-- C8 counterexample.  A DATES heading row carrying a poll date, an
alternate poll date and a declaration date yields three entries in the
record's dates field, not at most two. -/
theorem dates_three_entries_counterexample :
    (parseSummarySheet rowsDates3 "S01-1").dates.length = 3 := by
  decide

/-- C1.  For a merged constituency with a nonempty resolved candidate list,
the derived result comes from the candidates sorted descending by votes
secured total: winner from sorted[0] (party, name, total), runner-up and
margin from sorted[1] when present, and for exactly one candidate the
runner-up is the null/zero entry and the margin is the winner's total. -/
theorem merge_result_from_sorted_candidates (m : List (String × List Candidate))
    (rec : SummaryRecord) (cl : List Candidate) (hid : rec.id ≠ "")
    (hcl : alookup rec.id m = some cl) (hne : cl ≠ []) :
    (mergeConstituency m rec).result.winner.party =
      ((sortCandsDesc (mergeConstituency m rec).candidates).headD dummyCand).partyName ∧
    (mergeConstituency m rec).result.winner.cand =
      ((sortCandsDesc (mergeConstituency m rec).candidates).headD dummyCand).name ∧
    (mergeConstituency m rec).result.winner.votes =
      ((sortCandsDesc (mergeConstituency m rec).candidates).headD dummyCand).votesTotal ∧
    (2 ≤ (sortCandsDesc (mergeConstituency m rec).candidates).length →
      (mergeConstituency m rec).result.runnerUp.party =
        ((sortCandsDesc (mergeConstituency m rec).candidates).getD 1 dummyCand).partyName ∧
      (mergeConstituency m rec).result.runnerUp.cand =
        ((sortCandsDesc (mergeConstituency m rec).candidates).getD 1 dummyCand).name ∧
      (mergeConstituency m rec).result.runnerUp.votes =
        ((sortCandsDesc (mergeConstituency m rec).candidates).getD 1 dummyCand).votesTotal ∧
      (mergeConstituency m rec).result.margin =
        ((sortCandsDesc (mergeConstituency m rec).candidates).headD dummyCand).votesTotal -
          ((sortCandsDesc (mergeConstituency m rec).candidates).getD 1 dummyCand).votesTotal) ∧
    ((sortCandsDesc (mergeConstituency m rec).candidates).length = 1 →
      (mergeConstituency m rec).result.runnerUp = emptyResultEntry ∧
      (mergeConstituency m rec).result.margin =
        ((sortCandsDesc (mergeConstituency m rec).candidates).headD dummyCand).votesTotal) := by
  have hcands := merge_candidates_spec m rec cl hid hcl
  have hm : cl.map (updateCand (votersTotalTotal rec) (validVotesFromSummary rec)) ≠ [] := by
    simpa [List.map_eq_nil_iff] using hne
  have hres : (mergeConstituency m rec).result =
      deriveResult rec.result
        (sortCandsDesc (cl.map (updateCand (votersTotalTotal rec) (validVotesFromSummary rec)))) := by
    unfold mergeConstituency
    simp only [hid, if_false, hcl]
    simp [List.isEmpty_iff, hm]
  rw [hcands, hres]
  cases hs :
      sortCandsDesc (cl.map (updateCand (votersTotalTotal rec) (validVotesFromSummary rec))) with
  | nil =>
    exfalso
    have hlen :=
      length_sortCandsDesc (cl.map (updateCand (votersTotalTotal rec) (validVotesFromSummary rec)))
    rw [hs] at hlen
    exact hm (List.length_eq_zero.mp hlen.symm)
  | cons w l2 =>
    cases l2 with
    | nil => simp [deriveResult]
    | cons r l3 => simp [deriveResult, List.getD]

/-- C1 witness: the fixture with two candidates (totals 250 and 100) gives
winner P1 with 250 votes, runner-up P2 with 100 votes and margin 150. -/
theorem merge_result_from_sorted_candidates_witness :
    (mergeConstituency candsMapMerge recMerge).result.winner.party =
      ((sortCandsDesc (mergeConstituency candsMapMerge recMerge).candidates).headD
          dummyCand).partyName ∧
    (mergeConstituency candsMapMerge recMerge).result.winner.cand =
      ((sortCandsDesc (mergeConstituency candsMapMerge recMerge).candidates).headD
          dummyCand).name ∧
    (mergeConstituency candsMapMerge recMerge).result.winner.votes =
      ((sortCandsDesc (mergeConstituency candsMapMerge recMerge).candidates).headD
          dummyCand).votesTotal ∧
    (2 ≤ (sortCandsDesc (mergeConstituency candsMapMerge recMerge).candidates).length →
      (mergeConstituency candsMapMerge recMerge).result.runnerUp.party =
        ((sortCandsDesc (mergeConstituency candsMapMerge recMerge).candidates).getD 1
            dummyCand).partyName ∧
      (mergeConstituency candsMapMerge recMerge).result.runnerUp.cand =
        ((sortCandsDesc (mergeConstituency candsMapMerge recMerge).candidates).getD 1
            dummyCand).name ∧
      (mergeConstituency candsMapMerge recMerge).result.runnerUp.votes =
        ((sortCandsDesc (mergeConstituency candsMapMerge recMerge).candidates).getD 1
            dummyCand).votesTotal ∧
      (mergeConstituency candsMapMerge recMerge).result.margin =
        ((sortCandsDesc (mergeConstituency candsMapMerge recMerge).candidates).headD
            dummyCand).votesTotal -
          ((sortCandsDesc (mergeConstituency candsMapMerge recMerge).candidates).getD 1
              dummyCand).votesTotal) ∧
    ((sortCandsDesc (mergeConstituency candsMapMerge recMerge).candidates).length = 1 →
      (mergeConstituency candsMapMerge recMerge).result.runnerUp = emptyResultEntry ∧
      (mergeConstituency candsMapMerge recMerge).result.margin =
        ((sortCandsDesc (mergeConstituency candsMapMerge recMerge).candidates).headD
            dummyCand).votesTotal) :=
  merge_result_from_sorted_candidates candsMapMerge recMerge [candA, candB] (by decide)
    (by decide) (by decide)

unseal Rat.add Rat.mul Rat.inv Rat.sub in
/-- C5 counterexample.  The detailed source supplied candA's vote-share over
valid votes (30.0), yet the merge overwrites it with the recomputed value
round(250 / 1000 * 100, 2) = 25.0; the parsed value is not left unchanged. -/
theorem vote_share_overwritten_counterexample :
    candA.pctOverValidVotes = 30 ∧
    ((mergeConstituency candsMapMerge recMerge).candidates.headD
        dummyCand).pctOverValidVotes = 25 := by
  decide

/-- C5 amended.  The merge recomputes the vote-share over valid votes for
every candidate unconditionally: it equals round(total / denom * 100, 2)
whenever the effective denominator (the candidate's own valid votes when
nonzero, else the summary total) is positive, and 0.0 otherwise — regardless
of whether the detailed source supplied the percentage. -/
theorem vote_share_always_recomputed (m : List (String × List Candidate))
    (rec : SummaryRecord) (cl : List Candidate) (hid : rec.id ≠ "")
    (hcl : alookup rec.id m = some cl) (i : ℕ) (hi : i < cl.length) :
    ((mergeConstituency m rec).candidates.getD i dummyCand).pctOverValidVotes =
      (if 0 < (if (cl.getD i dummyCand).validVotes ≠ 0 then (cl.getD i dummyCand).validVotes
          else validVotesFromSummary rec) then
        pyRound2 (((cl.getD i dummyCand).votesTotal : ℚ) /
          (((if (cl.getD i dummyCand).validVotes ≠ 0 then (cl.getD i dummyCand).validVotes
              else validVotesFromSummary rec) : ℤ) : ℚ) * 100)
      else 0) := by
  rw [merge_candidates_spec m rec cl hid hcl]
  rw [List.getD_eq_getElem _ dummyCand (by simpa using hi), List.getElem_map,
    ← List.getD_eq_getElem cl dummyCand hi]
  rfl

/-- C5 amended witness: at the fixture, candidate 0 has valid votes 1000 and
total 250, so the merged share is 25. -/
theorem vote_share_always_recomputed_witness :
    ((mergeConstituency candsMapMerge recMerge).candidates.getD 0 dummyCand).pctOverValidVotes =
      (if 0 < (if ([candA, candB].getD 0 dummyCand).validVotes ≠ 0 then
            ([candA, candB].getD 0 dummyCand).validVotes
          else validVotesFromSummary recMerge) then
        pyRound2 ((([candA, candB].getD 0 dummyCand).votesTotal : ℚ) /
          (((if ([candA, candB].getD 0 dummyCand).validVotes ≠ 0 then
              ([candA, candB].getD 0 dummyCand).validVotes
              else validVotesFromSummary recMerge) : ℤ) : ℚ) * 100)
      else 0) :=
  vote_share_always_recomputed candsMapMerge recMerge [candA, candB] (by decide) (by decide)
    0 (by decide)

/-- C6 counterexample.  candA's total-electors placeholder is zero and the
constituency's elector total is 7, yet after the merge the candidate's total
electors is still 0: the merge never backfills Total Electors. -/
theorem electors_not_backfilled_counterexample :
    candA.totalElectors = 0 ∧
    electorsTotalTotal recMerge = 7 ∧
    ((mergeConstituency candsMapMerge recMerge).candidates.headD dummyCand).totalElectors = 0 := by
  decide

/-- C6 amended.  During the merge, total votes polled and valid votes are
backfilled from the summary exactly when the candidate value is the zero
placeholder (nonzero values are kept), but total electors is never modified:
it always keeps the value parsed from the detailed source. -/
theorem backfill_votes_only_when_zero_electors_never (m : List (String × List Candidate))
    (rec : SummaryRecord) (cl : List Candidate) (hid : rec.id ≠ "")
    (hcl : alookup rec.id m = some cl) (i : ℕ) (hi : i < cl.length) :
    (((mergeConstituency m rec).candidates.getD i dummyCand).totalVotesPolled =
      (if (cl.getD i dummyCand).totalVotesPolled = 0 then votersTotalTotal rec
       else (cl.getD i dummyCand).totalVotesPolled)) ∧
    (((mergeConstituency m rec).candidates.getD i dummyCand).validVotes =
      (if (cl.getD i dummyCand).validVotes = 0 then validVotesFromSummary rec
       else (cl.getD i dummyCand).validVotes)) ∧
    ((mergeConstituency m rec).candidates.getD i dummyCand).totalElectors =
      (cl.getD i dummyCand).totalElectors := by
  rw [merge_candidates_spec m rec cl hid hcl]
  rw [List.getD_eq_getElem _ dummyCand (by simpa using hi), List.getElem_map,
    ← List.getD_eq_getElem cl dummyCand hi]
  exact ⟨rfl, rfl, rfl⟩

/-- C6 amended witness: at the fixture, candidate 1 (candB) has zero
placeholders for both vote totals, which are backfilled to 900 and 880,
while total electors stays at its parsed value. -/
theorem backfill_votes_only_when_zero_electors_never_witness :
    (((mergeConstituency candsMapMerge recMerge).candidates.getD 1 dummyCand).totalVotesPolled =
      (if ([candA, candB].getD 1 dummyCand).totalVotesPolled = 0 then votersTotalTotal recMerge
       else ([candA, candB].getD 1 dummyCand).totalVotesPolled)) ∧
    (((mergeConstituency candsMapMerge recMerge).candidates.getD 1 dummyCand).validVotes =
      (if ([candA, candB].getD 1 dummyCand).validVotes = 0 then validVotesFromSummary recMerge
       else ([candA, candB].getD 1 dummyCand).validVotes)) ∧
    ((mergeConstituency candsMapMerge recMerge).candidates.getD 1 dummyCand).totalElectors =
      ([candA, candB].getD 1 dummyCand).totalElectors :=
  backfill_votes_only_when_zero_electors_never candsMapMerge recMerge [candA, candB]
    (by decide) (by decide) 1 (by decide)

/-! Lemmas on the sorted-set model of Python sorted(list(set(...))). -/

theorem charEq_of_toNat {a b : Char} (h : a.toNat = b.toNat) : a = b :=
  Char.ext (UInt32.ext h)

theorem listCharLt_flip {a b : List Char} (h : listCharLt a b = false) (hne : a ≠ b) :
    listCharLt b a = true := by
  induction a generalizing b with
  | nil =>
    cases b with
    | nil => exact absurd rfl hne
    | cons y ys => simp [listCharLt] at h
  | cons x xs ih =>
    cases b with
    | nil => rfl
    | cons y ys =>
      by_cases h1 : x.toNat < y.toNat
      · simp [listCharLt, h1] at h
      · by_cases h2 : y.toNat < x.toNat
        · simp [listCharLt, h2]
        · have hxy : x = y := charEq_of_toNat (by omega)
          subst hxy
          simp only [listCharLt, h1, if_false] at h ⊢
          exact ih h (fun e => hne (by rw [e]))

theorem strLt_flip {s t : String} (h : strLt s t = false) (hne : s ≠ t) :
    strLt t s = true := by
  unfold strLt at h ⊢
  refine listCharLt_flip h (fun e => hne ?_)
  cases s with
  | mk sd => cases t with
    | mk td => exact congrArg String.mk e

theorem insertStr_head (s : String) (l : List String) :
    (insertStr s l).head? = some s ∨ (insertStr s l).head? = l.head? := by
  cases l with
  | nil => exact Or.inl rfl
  | cons t ts =>
    by_cases h1 : strLt s t
    · left
      simp [insertStr, h1]
    · by_cases h2 : s = t
      · subst h2
        right
        simp [insertStr, h1]
      · right
        simp [insertStr, h1, h2]

theorem chain_insertStr (s : String) (l : List String)
    (h : List.Chain' (fun a b => strLt a b = true) l) :
    List.Chain' (fun a b => strLt a b = true) (insertStr s l) := by
  induction l with
  | nil => simp [insertStr]
  | cons t ts ih =>
    by_cases h1 : strLt s t
    · have hrw : insertStr s (t :: ts) = s :: t :: ts := by simp [insertStr, h1]
      rw [hrw]
      exact List.chain'_cons.mpr ⟨h1, h⟩
    · by_cases h2 : s = t
      · have hrw : insertStr s (t :: ts) = t :: ts := by
          subst h2
          simp [insertStr, h1]
        rw [hrw]
        exact h
      · have hrw : insertStr s (t :: ts) = t :: insertStr s ts := by simp [insertStr, h1, h2]
        rw [hrw, List.chain'_cons']
        refine ⟨?_, ih (List.chain'_cons'.mp h).2⟩
        intro y hy
        rcases insertStr_head s ts with he | he
        · rw [he] at hy
          cases hy
          exact strLt_flip (by simpa using h1) h2
        · rw [he] at hy
          exact (List.chain'_cons'.mp h).1 y hy

theorem chain_sortedDedup (l : List String) :
    List.Chain' (fun a b => strLt a b = true) (sortedDedup l) := by
  induction l with
  | nil => simp [sortedDedup]
  | cons s ss ih => exact chain_insertStr s (sortedDedup ss) ih

/-- C8 amended.  The dates field of every parsed summary record is the
sorted, duplicate-free image of the extracted date strings: it is strictly
increasing in the code-point order Python uses to sort strings.  It is not
the (poll date, declaration date) order, and (counterexample above) it can
hold three entries when an alternate poll date is present. -/
theorem dates_strictly_sorted (rows : List (List Value)) (title : String) :
    List.Chain' (fun a b => strLt a b = true) ((parseSummarySheet rows title).dates) := by
  unfold parseSummarySheet
  exact chain_sortedDedup _

/-! Lemmas on the string-cleaning and float-parsing model, used for the
coercion claims. -/

theorem dropWhile_eq_self_head {p : Char → Bool} {l : List Char}
    (h : ∀ x, l.head? = some x → p x = false) : l.dropWhile p = l := by
  cases l with
  | nil => rfl
  | cons c cs => simp [List.dropWhile_cons, h c rfl]

theorem pyStripList_eq_self {l : List Char}
    (h1 : ∀ x, l.head? = some x → isPySpace x = false)
    (h2 : ∀ x, l.getLast? = some x → isPySpace x = false) :
    pyStripList l = l := by
  unfold pyStripList
  rw [dropWhile_eq_self_head h1]
  rw [dropWhile_eq_self_head (fun x hx => h2 x (by rwa [List.head?_reverse] at hx))]
  exact List.reverse_reverse l

theorem takeWhile_all {p : Char → Bool} {l : List Char} (h : ∀ c ∈ l, p c = true) :
    l.takeWhile p = l := by
  induction l with
  | nil => rfl
  | cons c cs ih =>
    simp only [List.takeWhile_cons, h c (List.mem_cons_self c cs), if_true]
    rw [ih (fun d hd => h d (List.mem_cons_of_mem c hd))]

theorem dropWhile_all {p : Char → Bool} {l : List Char} (h : ∀ c ∈ l, p c = true) :
    l.dropWhile p = [] := by
  induction l with
  | nil => rfl
  | cons c cs ih =>
    simp only [List.dropWhile_cons, h c (List.mem_cons_self c cs), if_true]
    exact ih (fun d hd => h d (List.mem_cons_of_mem c hd))

theorem takeWhile_append_stop {p : Char → Bool} {l : List Char} {c : Char} {r : List Char}
    (hl : ∀ x ∈ l, p x = true) (hc : p c = false) :
    (l ++ c :: r).takeWhile p = l := by
  induction l with
  | nil => simp [List.takeWhile_cons, hc]
  | cons d ds ih =>
    simp [List.takeWhile_cons, hl d (List.mem_cons_self d ds)]
    exact ih (fun x hx => hl x (List.mem_cons_of_mem d hx))

theorem dropWhile_append_stop {p : Char → Bool} {l : List Char} {c : Char} {r : List Char}
    (hl : ∀ x ∈ l, p x = true) (hc : p c = false) :
    (l ++ c :: r).dropWhile p = c :: r := by
  induction l with
  | nil => simp [List.dropWhile_cons, hc]
  | cons d ds ih =>
    simp [List.dropWhile_cons, hl d (List.mem_cons_self d ds)]
    exact ih (fun x hx => hl x (List.mem_cons_of_mem d hx))

theorem pyReplaceF_noop {p : Char} {ps rep : List Char} :
    ∀ (fuel : ℕ) (l : List Char), p ∉ l → pyReplaceF fuel l (p :: ps) rep = l := by
  intro fuel
  induction fuel with
  | zero => intro l _; rfl
  | succ n ih =>
    intro l hp
    cases l with
    | nil => rfl
    | cons c cs =>
      have hpc : isPre (p :: ps) (c :: cs) = false := by
        have : ¬(p = c) := fun e => hp (e ▸ List.mem_cons_self p cs)
        simp [isPre, this]
      simp only [pyReplaceF, hpc, if_false, Bool.false_eq_true]
      rw [ih cs (fun hm => hp (List.mem_cons_of_mem c hm))]

theorem pyReplace_noop {p : Char} {ps rep l : List Char} (hp : p ∉ l) :
    pyReplace l (p :: ps) rep = l :=
  pyReplaceF_noop l.length l hp

/-- A digit character is not whitespace and differs from every
non-digit character. -/
theorem digit_ne {c d : Char} (hc : isAsciiDigit c = true) (hd : isAsciiDigit d = false) :
    c ≠ d := by
  intro e
  rw [e, hd] at hc
  cases hc

theorem digit_not_space {c : Char} (hc : isAsciiDigit c = true) : isPySpace c = false := by
  simp only [isAsciiDigit, Bool.and_eq_true, decide_eq_true_eq] at hc
  simp only [isPySpace]
  simp only [Bool.or_eq_false_iff, decide_eq_false_iff_not]
  omega

theorem asciiLower_digit {c : Char} (hc : isAsciiDigit c = true) : asciiLower c = c := by
  simp only [isAsciiDigit, Bool.and_eq_true, decide_eq_true_eq] at hc
  unfold asciiLower
  have : isAsciiUpper c = false := by
    simp only [isAsciiUpper, Bool.and_eq_false_iff]
    left
    simp only [decide_eq_false_iff_not]
    omega
  simp [this]

/-- The inf / infinity / nan literal checks fail on any list whose head is a
digit. -/
theorem lowerIs_digit_head_false {c : Char} {cs pat : List Char} {q : Char}
    (hc : isAsciiDigit c = true) (hq : isAsciiDigit q = false) :
    lowerIs (c :: cs) (q :: pat) = false := by
  simp only [lowerIs, listLower, List.map_cons, decide_eq_false_iff_not]
  intro e
  have h1 : asciiLower c = q := by
    injection e
  rw [asciiLower_digit hc] at h1
  exact digit_ne hc hq h1

theorem parseMantissa_digits {ds : List Char} (hne : ds ≠ [])
    (hd : ∀ c ∈ ds, isAsciiDigit c = true) :
    parseMantissa ds = some ((natOfDigits ds : ℚ), []) := by
  unfold parseMantissa
  rw [takeWhile_all hd, dropWhile_all hd]
  simp [hne]

theorem parseUnsigned_digits {ds : List Char} (hne : ds ≠ [])
    (hd : ∀ c ∈ ds, isAsciiDigit c = true) :
    parseUnsigned ds = some (PyFloat.finite (natOfDigits ds)) := by
  cases ds with
  | nil => exact absurd rfl hne
  | cons c cs =>
    have hc := hd c (List.mem_cons_self c cs)
    unfold parseUnsigned
    rw [lowerIs_digit_head_false hc (by decide), lowerIs_digit_head_false hc (by decide),
      lowerIs_digit_head_false hc (by decide)]
    simp only [Bool.false_eq_true, or_self, if_false]
    rw [parseMantissa_digits hne hd]

theorem pyFloatParse_digits {ds : List Char} (hne : ds ≠ [])
    (hd : ∀ c ∈ ds, isAsciiDigit c = true) :
    pyFloatParse (String.mk ds) = some (PyFloat.finite (natOfDigits ds)) := by
  have hstrip : pyStripList ds = ds := by
    refine pyStripList_eq_self (fun x hx => ?_) (fun x hx => ?_)
    · exact digit_not_space (hd x (by cases ds with
        | nil => cases hx
        | cons c cs => injection hx with hx2; rw [← hx2]; exact List.mem_cons_self c cs))
    · exact digit_not_space (hd x (List.mem_of_getLast?_eq_some hx))
  show pyFloatParse ⟨ds⟩ = _
  unfold pyFloatParse
  simp only [hstrip]
  cases ds with
  | nil => exact absurd rfl hne
  | cons c cs =>
    have hc := hd c (List.mem_cons_self c cs)
    have h1 : ¬(c = '+') := digit_ne hc (by decide)
    have h2 : ¬(c = '-') := digit_ne hc (by decide)
    simp only [h1, h2, if_false]
    exact parseUnsigned_digits hne hd

theorem pyReplaceF_cons_match {pat rep : List Char} (fuel : ℕ) (c : Char) (cs : List Char)
    (h : isPre pat (c :: cs) = true) :
    pyReplaceF (fuel + 1) (c :: cs) pat rep =
      rep ++ pyReplaceF fuel ((c :: cs).drop pat.length) pat rep := by
  simp [pyReplaceF, h]

theorem natOfDigits_cons_zero (ds : List Char) : natOfDigits ('0' :: ds) = natOfDigits ds :=
  rfl

theorem ratTrunc_natCast (n : ℕ) : ratTrunc ((n : ℕ) : ℚ) = (n : ℤ) := by
  unfold ratTrunc
  rw [Rat.num_natCast, Rat.den_natCast]
  exact Int.tdiv_one _

/-- The safe_int cleaning of a hyphen-signed digit string: stripping and the
comma, equals and N/A replacements leave it alone, the hyphen becomes the
digit 0, and no parentheses are stripped. -/
theorem safeIntClean_hyphen_digits {ds : List Char} (hne : ds ≠ [])
    (hd : ∀ c ∈ ds, isAsciiDigit c = true) :
    safeIntClean (String.mk ('-' :: ds)) = '0' :: ds := by
  have hnotin : ∀ (q : Char), isAsciiDigit q = false → q ≠ '-' → q ∉ ('-' :: ds) := by
    intro q hq hq2 hm
    rcases List.mem_cons.mp hm with e | e
    · exact hq2 e
    · have := hd q e
      rw [hq] at this
      cases this
  have hnotin0 : ∀ (q : Char), isAsciiDigit q = false → q ≠ '0' → q ∉ ('0' :: ds) := by
    intro q hq hq2 hm
    rcases List.mem_cons.mp hm with e | e
    · exact hq2 e
    · have := hd q e
      rw [hq] at this
      cases this
  have hstrip : pyStripList ('-' :: ds) = '-' :: ds := by
    refine pyStripList_eq_self (fun x hx => ?_) (fun x hx => ?_)
    · injection hx with hx2
      rw [← hx2]
      decide
    · rcases List.mem_cons.mp (List.mem_of_getLast?_eq_some hx) with e | e
      · rw [e]; decide
      · exact digit_not_space (hd x e)
  unfold safeIntClean
  simp only [hstrip]
  rw [pyReplace_noop (hnotin ',' (by decide) (by decide))]
  rw [pyReplace_noop (hnotin '=' (by decide) (by decide))]
  have hdash : pyReplace ('-' :: ds) ['-'] ['0'] = '0' :: ds := by
    unfold pyReplace
    simp only [List.length_cons]
    rw [pyReplaceF_cons_match ds.length '-' ds (by simp [isPre])]
    simp only [List.length_cons, List.drop_succ_cons, List.drop_zero, List.length_nil]
    rw [pyReplaceF_noop ds.length ds (fun hm => by
      have := hd '-' hm
      rw [show isAsciiDigit '-' = false from rfl] at this
      cases this)]
    rfl
  rw [hdash]
  rw [pyReplace_noop (hnotin0 'N' (by decide) (by decide))]
  have hpar : isPre ['('] ('0' :: ds) = false := by simp [isPre]
  simp [hpar]

/-- C10.  safe_int replaces each hyphen with the digit 0 before parsing, so a
hyphen-signed decimal string loses its sign: safe_int of the string minus
followed by digits ds equals the (nonnegative) value of the digits, never a
negative number. -/
theorem safe_int_hyphen_replaced_nonneg (ds : List Char) (hne : ds ≠ [])
    (hd : ∀ c ∈ ds, isAsciiDigit c = true) :
    pySafeInt (Value.vStr (String.mk ('-' :: ds))) = some ((natOfDigits ds : ℕ) : ℤ) ∧
    (0 : ℤ) ≤ ((natOfDigits ds : ℕ) : ℤ) := by
  constructor
  · have hparse : pyFloatParse (String.mk (safeIntClean (String.mk ('-' :: ds)))) =
        some (PyFloat.finite (natOfDigits ds)) := by
      rw [safeIntClean_hyphen_digits hne hd]
      rw [pyFloatParse_digits (by simp) (fun c hc => by
        rcases List.mem_cons.mp hc with e | e
        · rw [e]; decide
        · exact hd c e)]
      rw [natOfDigits_cons_zero]
    simp only [pySafeInt, hparse]
    rw [ratTrunc_natCast]
  · exact Int.natCast_nonneg _

/-- C10 witness: safe_int("-5") parses the rewritten string "05" and returns
5, a nonnegative value. -/
theorem safe_int_hyphen_replaced_nonneg_witness :
    pySafeInt (Value.vStr (String.mk ('-' :: ['5']))) = some ((natOfDigits ['5'] : ℕ) : ℤ) ∧
    (0 : ℤ) ≤ ((natOfDigits ['5'] : ℕ) : ℤ) :=
  safe_int_hyphen_replaced_nonneg ['5'] (by decide) (by decide)

/-- The safe_float cleaning leaves a percentage string (digits, a dot, digits
and a trailing percent sign) alone: no replacement applies to it and no
parentheses are stripped. -/
theorem safeFloatClean_pct {d1 d2 : List Char} (h1 : d1 ≠ [])
    (hd1 : ∀ c ∈ d1, isAsciiDigit c = true) (hd2 : ∀ c ∈ d2, isAsciiDigit c = true) :
    safeFloatClean (String.mk (d1 ++ '.' :: (d2 ++ ['%']))) = d1 ++ '.' :: (d2 ++ ['%']) := by
  have hmem : ∀ x ∈ d1 ++ '.' :: (d2 ++ ['%']), isAsciiDigit x = true ∨ x = '.' ∨ x = '%' := by
    intro x hx
    rcases List.mem_append.mp hx with h | h
    · exact Or.inl (hd1 x h)
    · rcases List.mem_cons.mp h with e | h2
      · exact Or.inr (Or.inl e)
      · rcases List.mem_append.mp h2 with h3 | h3
        · exact Or.inl (hd2 x h3)
        · rcases List.mem_cons.mp h3 with e | e
          · exact Or.inr (Or.inr e)
          · exact absurd e (List.not_mem_nil x)
  have hnotin : ∀ q : Char, isAsciiDigit q = false → q ≠ '.' → q ≠ '%' →
      q ∉ d1 ++ '.' :: (d2 ++ ['%']) := by
    intro q hq hqd hqp hm
    rcases hmem q hm with h | h | h
    · rw [hq] at h
      cases h
    · exact hqd h
    · exact hqp h
  have hnospace : ∀ x ∈ d1 ++ '.' :: (d2 ++ ['%']), isPySpace x = false := by
    intro x hx
    rcases hmem x hx with h | h | h
    · exact digit_not_space h
    · rw [h]; decide
    · rw [h]; decide
  have hstrip : pyStripList (d1 ++ '.' :: (d2 ++ ['%'])) = d1 ++ '.' :: (d2 ++ ['%']) := by
    refine pyStripList_eq_self (fun x hx => ?_) (fun x hx => ?_)
    · exact hnospace x (List.mem_of_mem_head? hx)
    · exact hnospace x (List.mem_of_getLast?_eq_some hx)
  unfold safeFloatClean
  simp only [hstrip]
  rw [pyReplace_noop (hnotin ',' (by decide) (by decide) (by decide))]
  rw [pyReplace_noop (hnotin '=' (by decide) (by decide) (by decide))]
  rw [pyReplace_noop (hnotin '-' (by decide) (by decide) (by decide))]
  rw [pyReplace_noop (hnotin 'N' (by decide) (by decide) (by decide))]
  have hpar : isPre ['('] (d1 ++ '.' :: (d2 ++ ['%'])) = false := by
    cases d1 with
    | nil => exact absurd rfl h1
    | cons c cs =>
      have hc := hd1 c (List.mem_cons_self c cs)
      have : ¬('(' = c) := by
        intro e
        rw [← e] at hc
        exact absurd hc (by decide)
      simp [isPre, this]
  simp [hpar]

/-- Python float() rejects a percentage string: the mantissa stops before the
percent sign and the remainder is not an exponent, so parsing fails with
ValueError. -/
theorem pyFloatParse_pct_none {d1 d2 : List Char} (h1 : d1 ≠ [])
    (hd1 : ∀ c ∈ d1, isAsciiDigit c = true) (hd2 : ∀ c ∈ d2, isAsciiDigit c = true) :
    pyFloatParse (String.mk (d1 ++ '.' :: (d2 ++ ['%']))) = none := by
  have hmem : ∀ x ∈ d1 ++ '.' :: (d2 ++ ['%']), isAsciiDigit x = true ∨ x = '.' ∨ x = '%' := by
    intro x hx
    rcases List.mem_append.mp hx with h | h
    · exact Or.inl (hd1 x h)
    · rcases List.mem_cons.mp h with e | h2
      · exact Or.inr (Or.inl e)
      · rcases List.mem_append.mp h2 with h3 | h3
        · exact Or.inl (hd2 x h3)
        · rcases List.mem_cons.mp h3 with e | e
          · exact Or.inr (Or.inr e)
          · exact absurd e (List.not_mem_nil x)
  have hnospace : ∀ x ∈ d1 ++ '.' :: (d2 ++ ['%']), isPySpace x = false := by
    intro x hx
    rcases hmem x hx with h | h | h
    · exact digit_not_space h
    · rw [h]; decide
    · rw [h]; decide
  have hstrip : pyStripList (d1 ++ '.' :: (d2 ++ ['%'])) = d1 ++ '.' :: (d2 ++ ['%']) := by
    refine pyStripList_eq_self (fun x hx => ?_) (fun x hx => ?_)
    · exact hnospace x (List.mem_of_mem_head? hx)
    · exact hnospace x (List.mem_of_getLast?_eq_some hx)
  have hmant : parseMantissa (d1 ++ '.' :: (d2 ++ ['%'])) =
      some ((natOfDigits d1 : ℚ) + (natOfDigits d2 : ℚ) / qpowNat 10 d2.length, ['%']) := by
    unfold parseMantissa
    rw [takeWhile_append_stop hd1 (by decide), dropWhile_append_stop hd1 (by decide)]
    simp only [List.takeWhile_cons]
    norm_num
    rw [takeWhile_append_stop hd2 (by decide), dropWhile_append_stop hd2 (by decide)]
    simp [h1]
  have hpu : parseUnsigned (d1 ++ '.' :: (d2 ++ ['%'])) = none := by
    cases d1 with
    | nil => exact absurd rfl h1
    | cons c cs =>
      have hc := hd1 c (List.mem_cons_self c cs)
      unfold parseUnsigned
      simp only [List.cons_append]
      rw [lowerIs_digit_head_false hc (by decide), lowerIs_digit_head_false hc (by decide),
        lowerIs_digit_head_false hc (by decide)]
      simp only [Bool.false_eq_true, or_self, if_false]
      rw [← List.cons_append, hmant]
      rfl
  show pyFloatParse ⟨d1 ++ '.' :: (d2 ++ ['%'])⟩ = none
  unfold pyFloatParse
  simp only [hstrip]
  cases d1 with
  | nil => exact absurd rfl h1
  | cons c cs =>
    have hc := hd1 c (List.mem_cons_self c cs)
    have hplus : ¬(c = '+') := digit_ne hc (by decide)
    have hminus : ¬(c = '-') := digit_ne hc (by decide)
    simp only [List.cons_append, hplus, hminus, if_false]
    rw [← List.cons_append]
    exact hpu

unseal Rat.mul Rat.inv in
/-- C4 counterexample.  safe_float does not strip a trailing percent sign:
safe_float("12.5%") is not 12.5. -/
theorem safe_float_percent_not_stripped_counterexample :
    pySafeFloat (Value.vStr "12.5%") ≠ PyFloat.finite (25 / 2) := by
  decide

/-- C4 amended.  safe_float performs no percent-sign stripping: for every
percentage string (digits, optional decimal part, trailing percent sign) the
inner float() call fails and the fallback 0.0 is returned, so
toFloat("12.5%") = 0.0, not 12.5. -/
theorem safe_float_percent_string_zero (d1 d2 : List Char) (h1 : d1 ≠ [])
    (hd1 : ∀ c ∈ d1, isAsciiDigit c = true) (hd2 : ∀ c ∈ d2, isAsciiDigit c = true) :
    pySafeFloat (Value.vStr (String.mk (d1 ++ '.' :: (d2 ++ ['%'])))) = PyFloat.finite 0 := by
  have hclean := safeFloatClean_pct h1 hd1 hd2
  have hparse : pyFloatParse (String.mk (safeFloatClean
      (String.mk (d1 ++ '.' :: (d2 ++ ['%']))))) = none := by
    rw [hclean]
    exact pyFloatParse_pct_none h1 hd1 hd2
  simp only [pySafeFloat, hparse]

/-- C4 amended witness: safe_float("12.5%") = 0.0. -/
theorem safe_float_percent_string_zero_witness :
    pySafeFloat (Value.vStr (String.mk (['1', '2'] ++ '.' :: (['5'] ++ ['%'])))) =
      PyFloat.finite 0 :=
  safe_float_percent_string_zero ['1', '2'] ['5'] (by decide) (by decide) (by decide)

/-! Lemmas for the constituency-name normalizer. -/

theorem charToNat_ofNat {n : ℕ} (h : n < 55296) : (Char.ofNat n).toNat = n := by
  rw [Char.ofNat, dif_pos (Or.inl h)]
  rfl

theorem letter_not_space {c : Char} (h : isAsciiLetter c = true) : isPySpace c = false := by
  simp only [isAsciiLetter, isAsciiLower, isAsciiUpper, Bool.or_eq_true, Bool.and_eq_true,
    decide_eq_true_eq] at h
  simp only [isPySpace, Bool.or_eq_false_iff, decide_eq_false_iff_not]
  omega

theorem letter_not_digit {c : Char} (h : isAsciiLetter c = true) : isAsciiDigit c = false := by
  simp only [isAsciiLetter, isAsciiLower, isAsciiUpper, Bool.or_eq_true, Bool.and_eq_true,
    decide_eq_true_eq] at h
  simp only [isAsciiDigit, Bool.and_eq_false_iff, decide_eq_false_iff_not]
  omega

theorem letter_ne {c d : Char} (hc : isAsciiLetter c = true) (hd : isAsciiLetter d = false) :
    c ≠ d := by
  intro e
  rw [e, hd] at hc
  cases hc

theorem asciiUpper_toNat {c : Char} :
    (asciiUpper c).toNat = if isAsciiLower c then c.toNat - 32 else c.toNat := by
  unfold asciiUpper
  by_cases h : isAsciiLower c = true
  · simp only [h, if_true]
    have hb : isAsciiLower c = true := h
    simp only [isAsciiLower, Bool.and_eq_true, decide_eq_true_eq] at hb
    exact charToNat_ofNat (by omega)
  · simp [h]

theorem asciiLower_toNat {c : Char} :
    (asciiLower c).toNat = if isAsciiUpper c then c.toNat + 32 else c.toNat := by
  unfold asciiLower
  by_cases h : isAsciiUpper c = true
  · simp only [h, if_true]
    have hb : isAsciiUpper c = true := h
    simp only [isAsciiUpper, Bool.and_eq_true, decide_eq_true_eq] at hb
    exact charToNat_ofNat (by omega)
  · simp [h]

theorem asciiUpper_not_lower {c : Char} (h : isAsciiLower c = false) : asciiUpper c = c := by
  unfold asciiUpper
  simp [h]

theorem asciiLower_not_upper {c : Char} (h : isAsciiUpper c = false) : asciiLower c = c := by
  unfold asciiLower
  simp [h]

theorem lower_asciiUpper_false (c : Char) : isAsciiLower (asciiUpper c) = false := by
  by_cases hl : isAsciiLower c = true
  · have hb := hl
    simp only [isAsciiLower, Bool.and_eq_true, decide_eq_true_eq] at hb
    have ht : (asciiUpper c).toNat = c.toNat - 32 := by rw [asciiUpper_toNat, if_pos hl]
    simp only [isAsciiLower, ht, Bool.and_eq_false_iff, decide_eq_false_iff_not]
    left
    omega
  · rw [Bool.not_eq_true] at hl
    rw [asciiUpper_not_lower hl]
    exact hl

theorem upper_asciiLower_false (c : Char) : isAsciiUpper (asciiLower c) = false := by
  by_cases hu : isAsciiUpper c = true
  · have hb := hu
    simp only [isAsciiUpper, Bool.and_eq_true, decide_eq_true_eq] at hb
    have ht : (asciiLower c).toNat = c.toNat + 32 := by rw [asciiLower_toNat, if_pos hu]
    simp only [isAsciiUpper, ht, Bool.and_eq_false_iff, decide_eq_false_iff_not]
    right
    omega
  · rw [Bool.not_eq_true] at hu
    rw [asciiLower_not_upper hu]
    exact hu

theorem asciiUpper_letter {c : Char} (h : isAsciiLetter c = true) :
    isAsciiLetter (asciiUpper c) = true := by
  by_cases hl : isAsciiLower c = true
  · have hb := hl
    simp only [isAsciiLower, Bool.and_eq_true, decide_eq_true_eq] at hb
    have ht : (asciiUpper c).toNat = c.toNat - 32 := by rw [asciiUpper_toNat, if_pos hl]
    simp only [isAsciiLetter, isAsciiLower, isAsciiUpper, ht, Bool.or_eq_true,
      Bool.and_eq_true, decide_eq_true_eq]
    right
    omega
  · rw [Bool.not_eq_true] at hl
    rw [asciiUpper_not_lower hl]
    exact h

theorem asciiLower_letter {c : Char} (h : isAsciiLetter c = true) :
    isAsciiLetter (asciiLower c) = true := by
  by_cases hu : isAsciiUpper c = true
  · have hb := hu
    simp only [isAsciiUpper, Bool.and_eq_true, decide_eq_true_eq] at hb
    have ht : (asciiLower c).toNat = c.toNat + 32 := by rw [asciiLower_toNat, if_pos hu]
    simp only [isAsciiLetter, isAsciiLower, isAsciiUpper, ht, Bool.or_eq_true,
      Bool.and_eq_true, decide_eq_true_eq]
    left
    omega
  · rw [Bool.not_eq_true] at hu
    rw [asciiLower_not_upper hu]
    exact h

theorem asciiUpper_idem (c : Char) : asciiUpper (asciiUpper c) = asciiUpper c :=
  asciiUpper_not_lower (lower_asciiUpper_false c)

theorem asciiLower_idem (c : Char) : asciiLower (asciiLower c) = asciiLower c :=
  asciiLower_not_upper (upper_asciiLower_false c)

theorem map_id_on {f : Char → Char} {l : List Char} (h : ∀ c ∈ l, f c = c) : l.map f = l := by
  induction l with
  | nil => rfl
  | cons c cs ih =>
    simp only [List.map_cons, h c (List.mem_cons_self c cs)]
    rw [ih (fun d hd => h d (List.mem_cons_of_mem c hd))]

theorem splitWSAux_word_ne_nil :
    ∀ (l acc w : List Char), w ∈ splitWSAux l acc → w ≠ [] := by
  intro l
  induction l with
  | nil =>
    intro acc w hw
    unfold splitWSAux at hw
    by_cases ha : acc = []
    · simp [ha] at hw
    · simp only [ha, if_false] at hw
      rcases List.mem_singleton.mp hw with e
      rw [e]
      simpa using ha
  | cons c cs ih =>
    intro acc w hw
    unfold splitWSAux at hw
    by_cases hc : isPySpace c = true
    · simp only [hc, if_true] at hw
      by_cases ha : acc = []
      · simp only [ha, if_true] at hw
        exact ih [] w hw
      · simp only [ha, if_false] at hw
        rcases List.mem_cons.mp hw with e | hw2
        · rw [e]
          simpa using ha
        · exact ih [] w hw2
    · simp only [hc, if_false, Bool.false_eq_true] at hw
      exact ih (c :: acc) w hw

theorem splitWSAux_word_mem :
    ∀ (l acc w : List Char), w ∈ splitWSAux l acc → ∀ x ∈ w,
      (x ∈ l ∧ isPySpace x = false) ∨ x ∈ acc := by
  intro l
  induction l with
  | nil =>
    intro acc w hw x hx
    unfold splitWSAux at hw
    by_cases ha : acc = []
    · simp [ha] at hw
    · simp only [ha, if_false] at hw
      rcases List.mem_singleton.mp hw with e
      right
      rw [e] at hx
      exact List.mem_reverse.mp hx
  | cons c cs ih =>
    intro acc w hw x hx
    unfold splitWSAux at hw
    by_cases hc : isPySpace c = true
    · simp only [hc, if_true] at hw
      have hsub : w ∈ splitWSAux cs [] → (x ∈ c :: cs ∧ isPySpace x = false) ∨ x ∈ acc := by
        intro hw2
        rcases ih [] w hw2 x hx with ⟨hm, hs⟩ | he
        · exact Or.inl ⟨List.mem_cons_of_mem c hm, hs⟩
        · exact absurd he (List.not_mem_nil x)
      by_cases ha : acc = []
      · simp only [ha, if_true] at hw
        exact hsub hw
      · simp only [ha, if_false] at hw
        rcases List.mem_cons.mp hw with e | hw2
        · right
          rw [e] at hx
          exact List.mem_reverse.mp hx
        · exact hsub hw2
    · simp only [hc, if_false, Bool.false_eq_true] at hw
      rcases ih (c :: acc) w hw x hx with ⟨hm, hs⟩ | he
      · exact Or.inl ⟨List.mem_cons_of_mem c hm, hs⟩
      · rcases List.mem_cons.mp he with e | he2
        · refine Or.inl ⟨?_, ?_⟩
          · rw [e]; exact List.mem_cons_self c cs
          · rw [e, ← Bool.not_eq_true]; exact hc
        · exact Or.inr he2

theorem splitWSAux_ne_nil :
    ∀ (l acc : List Char), acc ≠ [] → splitWSAux l acc ≠ [] := by
  intro l
  induction l with
  | nil =>
    intro acc ha
    unfold splitWSAux
    simp [ha]
  | cons c cs ih =>
    intro acc ha
    unfold splitWSAux
    by_cases hc : isPySpace c = true
    · simp [hc, ha]
    · simp only [hc, if_false, Bool.false_eq_true]
      exact ih (c :: acc) (by simp)

theorem splitWSAux_cons (c : Char) (cs acc : List Char) :
    splitWSAux (c :: cs) acc =
      if isPySpace c = true then
        (if acc = [] then splitWSAux cs [] else acc.reverse :: splitWSAux cs [])
      else splitWSAux cs (c :: acc) := rfl

theorem splitWSAux_nonspace_front :
    ∀ (w l acc : List Char), (∀ c ∈ w, isPySpace c = false) →
      splitWSAux (w ++ l) acc = splitWSAux l (w.reverse ++ acc) := by
  intro w
  induction w with
  | nil => intro l acc _; simp
  | cons c cs ih =>
    intro l acc hw
    have hc : isPySpace c = false := hw c (List.mem_cons_self c cs)
    simp only [List.cons_append]
    rw [splitWSAux_cons]
    simp only [hc, Bool.false_eq_true, if_false]
    rw [ih l (c :: acc) (fun d hd => hw d (List.mem_cons_of_mem c hd))]
    rw [List.reverse_cons, List.append_assoc, List.singleton_append]

theorem splitWS_single {w : List Char} (hne : w ≠ [])
    (hw : ∀ c ∈ w, isPySpace c = false) : splitWS w = [w] := by
  unfold splitWS
  have := splitWSAux_nonspace_front w [] [] hw
  rw [List.append_nil] at this
  rw [this]
  unfold splitWSAux
  simp [hne]

theorem splitWS_join :
    ∀ (ws : List (List Char)),
      (∀ w ∈ ws, w ≠ [] ∧ ∀ c ∈ w, isPySpace c = false) →
      splitWS (joinWith [' '] ws) = ws := by
  intro ws
  induction ws with
  | nil => intro _; rfl
  | cons w ws2 ih =>
    intro h
    have hw := h w (List.mem_cons_self w ws2)
    cases ws2 with
    | nil => exact splitWS_single hw.1 hw.2
    | cons w2 rest =>
      have hj : joinWith [' '] (w :: w2 :: rest) =
          w ++ ' ' :: joinWith [' '] (w2 :: rest) := by
        show w ++ [' '] ++ joinWith [' '] (w2 :: rest) = _
        rw [List.append_assoc]
        rfl
      rw [hj]
      unfold splitWS
      rw [splitWSAux_nonspace_front w (' ' :: joinWith [' '] (w2 :: rest)) [] hw.2]
      rw [List.append_nil]
      unfold splitWSAux
      have hsp : isPySpace ' ' = true := by decide
      have hwr : w.reverse ≠ [] := by simpa using hw.1
      simp only [hsp, if_true, hwr, if_false, List.reverse_reverse]
      have := ih (fun x hx => h x (List.mem_cons_of_mem w hx))
      unfold splitWS at this
      rw [this]

theorem capWord_ne_nil {w : List Char} (h : w ≠ []) : capWord w ≠ [] := by
  cases w with
  | nil => exact absurd rfl h
  | cons c cs => simp [capWord]

theorem capWord_letters {w : List Char} (h : ∀ c ∈ w, isAsciiLetter c = true) :
    ∀ x ∈ capWord w, isAsciiLetter x = true := by
  cases w with
  | nil => intro x hx; cases hx
  | cons c cs =>
    intro x hx
    rcases List.mem_cons.mp hx with e | hx2
    · rw [e]
      exact asciiUpper_letter (h c (List.mem_cons_self c cs))
    · rcases List.mem_map.mp hx2 with ⟨d, hd, he⟩
      rw [← he]
      exact asciiLower_letter (h d (List.mem_cons_of_mem c hd))

theorem capWord_idem (w : List Char) : capWord (capWord w) = capWord w := by
  cases w with
  | nil => rfl
  | cons c cs =>
    simp only [capWord, asciiUpper_idem, List.map_map]
    rw [List.map_congr_left (fun a _ => by
      show asciiLower (asciiLower a) = asciiLower a
      exact asciiLower_idem a)]

theorem joinWith_mem {sep : List Char} :
    ∀ {ws : List (List Char)} {x : Char}, x ∈ joinWith sep ws →
      x ∈ sep ∨ ∃ w ∈ ws, x ∈ w := by
  intro ws
  induction ws with
  | nil => intro x hx; cases hx
  | cons w ws2 ih =>
    intro x hx
    cases ws2 with
    | nil => exact Or.inr ⟨w, List.mem_cons_self w [], hx⟩
    | cons w2 rest =>
      have : x ∈ (w ++ sep) ++ joinWith sep (w2 :: rest) := hx
      rcases List.mem_append.mp this with h1 | h2
      · rcases List.mem_append.mp h1 with h3 | h4
        · exact Or.inr ⟨w, List.mem_cons_self w (w2 :: rest), h3⟩
        · exact Or.inl h4
      · rcases ih h2 with h5 | ⟨v, hv, hxv⟩
        · exact Or.inl h5
        · exact Or.inr ⟨v, List.mem_cons_of_mem w hv, hxv⟩

theorem joinWith_ne_nil {sep : List Char} :
    ∀ {ws : List (List Char)}, ws ≠ [] → (∀ v ∈ ws, v ≠ []) → joinWith sep ws ≠ [] := by
  intro ws
  induction ws with
  | nil => intro h _; exact absurd rfl h
  | cons w ws2 ih =>
    intro _ hv
    cases ws2 with
    | nil => exact hv w (List.mem_cons_self w [])
    | cons w2 rest =>
      show (w ++ sep) ++ joinWith sep (w2 :: rest) ≠ []
      simp only [ne_eq, List.append_eq_nil, not_and]
      intro h1
      exact absurd h1.1 (hv w (List.mem_cons_self w (w2 :: rest)))

theorem joinWith_head?_words {sep : List Char} (w : List Char) (ws : List (List Char))
    (h : w ≠ []) : (joinWith sep (w :: ws)).head? = w.head? := by
  cases ws with
  | nil => rfl
  | cons w2 rest =>
    show ((w ++ sep) ++ joinWith sep (w2 :: rest)).head? = _
    rw [List.head?_append_of_ne_nil _ (by simp [h]), List.head?_append_of_ne_nil _ h]

theorem joinWith_getLast?_words {sep : List Char} :
    ∀ (ws : List (List Char)), ws ≠ [] → (∀ v ∈ ws, v ≠ []) →
      ∃ v ∈ ws, (joinWith sep ws).getLast? = v.getLast? := by
  intro ws
  induction ws with
  | nil => intro h _; exact absurd rfl h
  | cons w ws2 ih =>
    intro _ hv
    cases ws2 with
    | nil => exact ⟨w, List.mem_cons_self w [], rfl⟩
    | cons w2 rest =>
      have hjoin : joinWith sep (w2 :: rest) ≠ [] :=
        joinWith_ne_nil (by simp) (fun v hvm => hv v (List.mem_cons_of_mem w hvm))
      obtain ⟨v, hvm, he⟩ :=
        ih (by simp) (fun v hvm => hv v (List.mem_cons_of_mem w hvm))
      refine ⟨v, List.mem_cons_of_mem w hvm, ?_⟩
      show ((w ++ sep) ++ joinWith sep (w2 :: rest)).getLast? = _
      rw [List.getLast?_append_of_ne_nil _ hjoin, he]

theorem splitWS_words_letters {u : List Char}
    (hall : ∀ c ∈ u, isAsciiLetter c = true ∨ c = ' ') :
    ∀ w ∈ splitWS u, w ≠ [] ∧ ∀ c ∈ w, isAsciiLetter c = true := by
  intro w hw
  refine ⟨splitWSAux_word_ne_nil u [] w hw, ?_⟩
  intro c hc
  rcases splitWSAux_word_mem u [] w hw c hc with ⟨hm, hs⟩ | he
  · rcases hall c hm with h | h
    · exact h
    · rw [h] at hs
      exact absurd hs (by decide)
  · cases he

theorem splitWS_ne_nil_of_head {u : List Char} {x : Char}
    (hx : u.head? = some x) (hs : isPySpace x = false) : splitWS u ≠ [] := by
  cases u with
  | nil => cases hx
  | cons c cs =>
    have he : c = x := by injection hx
    unfold splitWS
    rw [splitWSAux_cons]
    rw [he]
    simp only [hs, Bool.false_eq_true, if_false]
    exact splitWSAux_ne_nil cs [x] (by simp)

theorem capwords_class {u : List Char} (hne : u ≠ [])
    (hall : ∀ c ∈ u, isAsciiLetter c = true ∨ c = ' ')
    (hhead : ∀ x, u.head? = some x → isAsciiLetter x = true) :
    capwordsList u ≠ [] ∧
    (∀ c ∈ capwordsList u, isAsciiLetter c = true ∨ c = ' ') ∧
    (∀ x, (capwordsList u).head? = some x → isAsciiLetter x = true) ∧
    (∀ x, (capwordsList u).getLast? = some x → isAsciiLetter x = true) := by
  have hwords := splitWS_words_letters hall
  have hne2 : splitWS u ≠ [] := by
    cases u with
    | nil => exact absurd rfl hne
    | cons c cs => exact splitWS_ne_nil_of_head rfl (letter_not_space (hhead c rfl))
  have hcap : capwordsList u = joinWith [' '] ((splitWS u).map capWord) := rfl
  have hws_ne : (splitWS u).map capWord ≠ [] := by
    simpa [List.map_eq_nil_iff] using hne2
  have hws_words : ∀ v ∈ (splitWS u).map capWord,
      v ≠ [] ∧ ∀ c ∈ v, isAsciiLetter c = true := by
    intro v hv
    rcases List.mem_map.mp hv with ⟨w, hwm, he⟩
    obtain ⟨h1, h2⟩ := hwords w hwm
    constructor
    · rw [← he]
      exact capWord_ne_nil h1
    · rw [← he]
      exact capWord_letters h2
  refine ⟨?_, ?_, ?_, ?_⟩
  · rw [hcap]
    exact joinWith_ne_nil hws_ne (fun v hv => (hws_words v hv).1)
  · intro c hc
    rw [hcap] at hc
    rcases joinWith_mem hc with hsep | ⟨v, hv, hcv⟩
    · right
      simpa using hsep
    · left
      exact (hws_words v hv).2 c hcv
  · intro x hx
    rw [hcap] at hx
    obtain ⟨w1, rest, he⟩ := List.exists_cons_of_ne_nil hws_ne
    rw [he] at hx
    rw [joinWith_head?_words w1 rest
      ((hws_words w1 (by rw [he]; exact List.mem_cons_self w1 rest)).1)] at hx
    exact (hws_words w1 (by rw [he]; exact List.mem_cons_self w1 rest)).2 x
      (List.mem_of_mem_head? hx)
  · intro x hx
    rw [hcap] at hx
    obtain ⟨v, hv, he⟩ :=
      joinWith_getLast?_words ((splitWS u).map capWord) hws_ne
        (fun v hv => (hws_words v hv).1)
    rw [he] at hx
    exact (hws_words v hv).2 x (List.mem_of_getLast?_eq_some hx)

theorem capwordsList_idem {u : List Char}
    (hall : ∀ c ∈ u, isAsciiLetter c = true ∨ c = ' ') :
    capwordsList (capwordsList u) = capwordsList u := by
  have hwords := splitWS_words_letters hall
  have hws_words : ∀ v ∈ (splitWS u).map capWord,
      v ≠ [] ∧ ∀ c ∈ v, isPySpace c = false := by
    intro v hv
    rcases List.mem_map.mp hv with ⟨w, hwm, he⟩
    obtain ⟨h1, h2⟩ := hwords w hwm
    constructor
    · rw [← he]
      exact capWord_ne_nil h1
    · rw [← he]
      intro c hc
      exact letter_not_space (capWord_letters h2 c hc)
  have hcap : capwordsList u = joinWith [' '] ((splitWS u).map capWord) := rfl
  conv_lhs => rw [hcap]
  unfold capwordsList
  rw [splitWS_join _ hws_words]
  rw [List.map_map]
  rw [List.map_congr_left (fun w _ => by
    show capWord (capWord w) = capWord w
    exact capWord_idem w)]

theorem mem_of_dropWhileP {p : Char → Bool} :
    ∀ {l : List Char} {x : Char}, x ∈ l.dropWhile p → x ∈ l := by
  intro l
  induction l with
  | nil => intro x hx; cases hx
  | cons c cs ih =>
    intro x hx
    rw [List.dropWhile_cons] at hx
    by_cases hp : p c = true
    · simp only [hp, if_true] at hx
      exact List.mem_cons_of_mem c (ih hx)
    · simp only [hp, Bool.false_eq_true, if_false] at hx
      exact hx

theorem mem_of_takeWhileP {p : Char → Bool} :
    ∀ {l : List Char} {x : Char}, x ∈ l.takeWhile p → x ∈ l := by
  intro l
  induction l with
  | nil => intro x hx; cases hx
  | cons c cs ih =>
    intro x hx
    rw [List.takeWhile_cons] at hx
    by_cases hp : p c = true
    · simp only [hp, if_true] at hx
      rcases List.mem_cons.mp hx with e | hx2
      · rw [e]; exact List.mem_cons_self c cs
      · exact List.mem_cons_of_mem c (ih hx2)
    · simp only [hp, Bool.false_eq_true, if_false] at hx
      cases hx

theorem tryCatParen_none {l : List Char} (h : '(' ∉ l) : tryCatParen l = none := by
  have hd : '(' ∉ l.dropWhile isPySpace := fun hm => h (mem_of_dropWhileP hm)
  unfold tryCatParen
  cases h0 : l.dropWhile isPySpace with
  | nil => rfl
  | cons c1 r1 =>
    rw [h0] at hd
    cases r1 with
    | nil => rfl
    | cons a r2 =>
      cases r2 with
      | nil => rfl
      | cons b r3 =>
        cases r3 with
        | nil => rfl
        | cons c2 rest =>
          have hc1 : ¬(c1 = '(') := by
            intro e
            exact hd (by rw [← e]; exact List.mem_cons_self c1 _)
          simp [hc1]

theorem subCatParenF_cons (fuel : ℕ) (c : Char) (cs : List Char) :
    subCatParenF (fuel + 1) (c :: cs) =
      (match tryCatParen (c :: cs) with
       | some rest => ' ' :: subCatParenF fuel rest
       | none => c :: subCatParenF fuel cs) := rfl

theorem subCatParenF_no_paren :
    ∀ (fuel : ℕ) {l : List Char}, '(' ∉ l → subCatParenF fuel l = l := by
  intro fuel
  induction fuel with
  | zero => intro l _; rfl
  | succ n ih =>
    intro l hl
    cases l with
    | nil => rfl
    | cons c cs =>
      rw [subCatParenF_cons, tryCatParen_none hl]
      rw [ih (fun hm => hl (List.mem_cons_of_mem c hm))]

theorem subCatParen_no_paren {l : List Char} (h : '(' ∉ l) : subCatParen l = l :=
  subCatParenF_no_paren l.length h

theorem dropCatSuffix_eq (l : List Char) :
    dropCatSuffix l =
      (match (match l.reverse.dropWhile isAsciiDigit with
              | c :: t => if c = '-' then t else l.reverse.dropWhile isAsciiDigit
              | [] => l.reverse.dropWhile isAsciiDigit) with
       | b :: a :: d :: rest =>
         if d = '-' ∧ (b = 'C' ∨ b = 'c' ∨ b = 'T' ∨ b = 't') ∧ (a = 'S' ∨ a = 's') then
           rest.reverse
         else l
       | _ => l) := rfl

theorem dropCatSuffix_no_dash {l : List Char} (h : '-' ∉ l) : dropCatSuffix l = l := by
  have hr1 : '-' ∉ l.reverse.dropWhile isAsciiDigit := fun hm =>
    h (List.mem_reverse.mp (mem_of_dropWhileP hm))
  rw [dropCatSuffix_eq]
  cases h0 : l.reverse.dropWhile isAsciiDigit with
  | nil => rfl
  | cons c t =>
    rw [h0] at hr1
    have hc : ¬(c = '-') := fun e => hr1 (by rw [← e]; exact List.mem_cons_self c t)
    simp only [hc, if_false, Bool.false_eq_true]
    cases t with
    | nil => rfl
    | cons a t2 =>
      cases t2 with
      | nil => rfl
      | cons d rest =>
        have hdm : ¬(d = '-') := fun e => hr1 (by
          rw [← e]
          exact List.mem_cons_of_mem c (List.mem_cons_of_mem a (List.mem_cons_self d rest)))
        simp [hdm]

theorem dropNumSuffix_eq (l : List Char) :
    dropNumSuffix l =
      (match (l.reverse.dropWhile isPySpace).takeWhile isAsciiDigit,
          ((l.reverse.dropWhile isPySpace).dropWhile isAsciiDigit).dropWhile isPySpace with
       | _ :: _, c :: rest =>
         if c = '-' then (rest.dropWhile isPySpace).reverse else l
       | _, _ => l) := rfl

theorem dropNumSuffix_no_dash {l : List Char} (h : '-' ∉ l) : dropNumSuffix l = l := by
  have hr2 : '-' ∉ ((l.reverse.dropWhile isPySpace).dropWhile isAsciiDigit).dropWhile
      isPySpace := fun hm =>
    h (List.mem_reverse.mp (mem_of_dropWhileP (mem_of_dropWhileP (mem_of_dropWhileP hm))))
  rw [dropNumSuffix_eq]
  cases h0 : (l.reverse.dropWhile isPySpace).takeWhile isAsciiDigit with
  | nil =>
    cases h1 : ((l.reverse.dropWhile isPySpace).dropWhile isAsciiDigit).dropWhile isPySpace with
    | nil => rfl
    | cons c rest => rfl
  | cons d ds =>
    cases h1 : ((l.reverse.dropWhile isPySpace).dropWhile isAsciiDigit).dropWhile isPySpace with
    | nil => rfl
    | cons c rest =>
      rw [h1] at hr2
      have hc : ¬(c = '-') := fun e => hr2 (by rw [← e]; exact List.mem_cons_self c rest)
      simp [hc]

theorem dropGenSuffix_no_dash {l : List Char} (h : '-' ∉ l) : dropGenSuffix l = l := by
  have hr : '-' ∉ l.reverse := fun hm => h (List.mem_reverse.mp hm)
  unfold dropGenSuffix
  cases h0 : l.reverse with
  | nil => rfl
  | cons n t =>
    rw [h0] at hr
    cases t with
    | nil => rfl
    | cons e t2 =>
      cases t2 with
      | nil => rfl
      | cons g t3 =>
        cases t3 with
        | nil => rfl
        | cons d rest =>
          have hdm : ¬(d = '-') := fun he => hr (by
            rw [← he]
            exact List.mem_cons_of_mem n (List.mem_cons_of_mem e
              (List.mem_cons_of_mem g (List.mem_cons_self d rest))))
          simp [hdm]

theorem splitDashAux_no_dash :
    ∀ (l acc : List Char), '-' ∉ l → splitDashAux l acc = [acc.reverse ++ l] := by
  intro l
  induction l with
  | nil => intro acc _; simp [splitDashAux]
  | cons c cs ih =>
    intro acc hc
    have hne : ¬(c = '-') := fun e => hc (by rw [← e]; exact List.mem_cons_self c cs)
    unfold splitDashAux
    simp only [hne, if_false, Bool.false_eq_true]
    rw [ih (c :: acc) (fun hm => hc (List.mem_cons_of_mem c hm))]
    rw [List.reverse_cons, List.append_assoc, List.singleton_append]

theorem splitDash_no_dash {l : List Char} (h : '-' ∉ l) : splitDash l = [l] := by
  unfold splitDash
  rw [splitDashAux_no_dash l [] h]
  rfl

theorem replaceAmp_no_amp {l : List Char} (h : '&' ∉ l) : replaceAmp l = l := by
  unfold replaceAmp
  induction l with
  | nil => rfl
  | cons c cs ih =>
    have hne : ¬(c = '&') := fun e => h (by rw [← e]; exact List.mem_cons_self c cs)
    simp only [List.flatMap_cons, hne, if_false, Bool.false_eq_true]
    rw [ih (fun hm => h (List.mem_cons_of_mem c hm))]
    rfl

/-- On a name made of letters and spaces that starts and ends with a letter,
format_constituency_name reduces to capwords: every regex step is the
identity and the single hyphen-free segment is capitalized word by word. -/
theorem format_on_class {u : List Char} (hne : u ≠ [])
    (hall : ∀ c ∈ u, isAsciiLetter c = true ∨ c = ' ')
    (hhead : ∀ x, u.head? = some x → isAsciiLetter x = true)
    (hlast : ∀ x, u.getLast? = some x → isAsciiLetter x = true) :
    formatConstituencyName (String.mk u) = String.mk (capwordsList u) := by
  have hne' : ¬(String.mk u = "") := by
    intro e
    exact hne (congrArg String.data e)
  have hnb : ∀ c ∈ u, c ≠ nbsp := by
    intro c hc e
    rcases hall c hc with h | h
    · rw [e] at h
      exact absurd h (by decide)
    · rw [e] at h
      exact absurd h (by decide)
  have e0 : u.map (fun c => if c = nbsp then ' ' else c) = u :=
    map_id_on (fun c hc => if_neg (hnb c hc))
  have e1 : pyStripList u = u :=
    pyStripList_eq_self (fun x hx => letter_not_space (hhead x hx))
      (fun x hx => letter_not_space (hlast x hx))
  have e2 : u.dropWhile (fun c => isAsciiDigit c || isPySpace c || c = '-') = u := by
    refine dropWhile_eq_self_head (fun x hx => ?_)
    have hx2 := hhead x hx
    show (isAsciiDigit x || isPySpace x || decide (x = '-')) = false
    rw [letter_not_digit hx2, letter_not_space hx2,
      decide_eq_false (@letter_ne x '-' hx2 (by decide))]
    rfl
  have hdash : '-' ∉ u := by
    intro hm
    rcases hall '-' hm with h | h
    · exact absurd h (by decide)
    · exact absurd h (by decide)
  have hparen : '(' ∉ u := by
    intro hm
    rcases hall '(' hm with h | h
    · exact absurd h (by decide)
    · exact absurd h (by decide)
  have e3 : subCatParen u = u := subCatParen_no_paren hparen
  have e4 : dropCatSuffix u = u := dropCatSuffix_no_dash hdash
  have e5 : dropNumSuffix u = u := dropNumSuffix_no_dash hdash
  have e6 : dropGenSuffix u = u := dropGenSuffix_no_dash hdash
  have e7 : splitDash u = [u] := splitDash_no_dash hdash
  have hamp : '&' ∉ capwordsList u := by
    intro hm
    rcases (capwords_class hne hall hhead).2.1 '&' hm with h | h
    · exact absurd h (by decide)
    · exact absurd h (by decide)
  have e8 : replaceAmp (capwordsList u) = capwordsList u := replaceAmp_no_amp hamp
  unfold formatConstituencyName
  rw [if_neg hne']
  simp only [e0, e1, e2, e3, e4, e5, e6, e7]
  simp [e1, hne]
  show String.mk (replaceAmp (capwordsList u)) = String.mk (capwordsList u)
  exact congrArg String.mk e8

/-- C7 counterexample: format_constituency_name is not idempotent. The
input 2 maps to the empty string (the digit is stripped and nothing
remains), and the empty string maps to Unknown, so a second application
changes the result. -/
theorem format_name_not_idempotent_counterexample :
    formatConstituencyName (formatConstituencyName (String.mk ['2'])) ≠
      formatConstituencyName (String.mk ['2']) := by decide

/-- C7 amended: format_constituency_name is idempotent on names made of
ASCII letters and spaces that start and end with a letter. On that class
both applications reduce to capwords, and capwords is idempotent. -/
theorem format_name_idempotent_on_letter_words (u : List Char) (hne : u ≠ [])
    (hall : ∀ c ∈ u, isAsciiLetter c = true ∨ c = ' ')
    (hhead : ∀ x, u.head? = some x → isAsciiLetter x = true)
    (hlast : ∀ x, u.getLast? = some x → isAsciiLetter x = true) :
    formatConstituencyName (formatConstituencyName (String.mk u)) =
      formatConstituencyName (String.mk u) := by
  obtain ⟨t_ne, t_all, t_head, t_last⟩ := capwords_class hne hall hhead
  rw [format_on_class hne hall hhead hlast,
    format_on_class t_ne t_all t_head t_last,
    capwordsList_idem hall]

theorem format_name_idempotent_witness :
    formatConstituencyName (formatConstituencyName (String.mk
      ['N','o','r','t','h',' ','G','o','a'])) =
      formatConstituencyName (String.mk ['N','o','r','t','h',' ','G','o','a']) :=
  format_name_idempotent_on_letter_words _ (by decide)
    (by decide)
    (fun x hx => by
      have h1 : some 'N' = some x := hx
      cases h1
      decide)
    (fun x hx => by
      have h1 : some 'a' = some x := hx
      cases h1
      decide)
